import Mathlib

/-!
Shallow embedding of the text-editing core of the hectors editor
(src/row.rs, src/file.rs, src/highlight.rs, src/editor.rs, src/screen.rs)
and proofs about the claims of its specification.

Conventions of the embedding:
* Rust String values are modelled as List Char (a list of Unicode scalar
  values, exactly the sequence produced by the chars iterator).
* Byte indices returned by str find / rfind are modelled through an
  explicit UTF-8 length function on character lists.  Since UTF-8 is
  self-synchronizing, every byte-level occurrence of a valid non-empty
  needle starts on a character boundary, so the byte index of the
  leftmost (rightmost) occurrence is the UTF-8 length of the character
  prefix before the leftmost (rightmost) character-level occurrence.
* Grapheme segmentation (unicode-segmentation, extended grapheme
  clusters) is modelled by the rule that a grapheme cluster is a base
  character followed by characters of Grapheme_Cluster_Break class
  Extend (UAX 29 rule GB9), with the Extend class restricted to the
  combining diacritical marks U+0300 - U+036F.  No character of any
  other special grapheme break class (CR, LF, Hangul jamo, ZWJ,
  regional indicators, SpacingMark, Prepend) appears in any input
  considered in this development, and for such inputs this rule is
  exactly the UAX 29 segmentation used by the crate.
* Functions that Rust can only exit by panicking (out-of-bounds Vec
  indexing) are modelled with an Option result, none standing for the
  panic.
* The two imperative scan loops of Row::highlight that advance an index
  by a computed positive amount are modelled with an explicit fuel
  parameter; the callers supply fuel that is proved (and in concrete
  evaluations, seen) to be sufficient, since every iteration advances
  the index by at least one.
-/

namespace Hectors

/-- Highlight enum of src/highlight.rs (variant Match is called matched here
because match is a Lean keyword). -/
inductive Highlight where
  | none
  | normal
  | string
  | character
  | comment
  | mlComment
  | keyword1
  | keyword2
  | number
  | matched
  | caps
deriving DecidableEq, Repr

/-- SearchDirection enum of src/editor.rs. -/
inductive SearchDirection where
  | forward
  | backward
deriving DecidableEq, Repr

/-- Position struct of src/screen.rs. -/
structure Position where
  x : Nat
  y : Nat
deriving DecidableEq, Repr

/-- Rust char::is_control : the Unicode Cc category,
U+0000 - U+001F and U+007F - U+009F. -/
def isControlChar (c : Char) : Bool :=
  c.toNat ≤ 0x1f || (0x7f ≤ c.toNat && c.toNat ≤ 0x9f)

/-- Rust char::is_whitespace : the Unicode White_Space property. -/
def isWhitespaceChar (c : Char) : Bool :=
  (0x9 ≤ c.toNat && c.toNat ≤ 0xd) || c.toNat = 0x20 || c.toNat = 0x85 ||
  c.toNat = 0xa0 || c.toNat = 0x1680 ||
  (0x2000 ≤ c.toNat && c.toNat ≤ 0x200a) ||
  c.toNat = 0x2028 || c.toNat = 0x2029 || c.toNat = 0x202f ||
  c.toNat = 0x205f || c.toNat = 0x3000

/-- Fixed punctuation set of fn is_separator in src/row.rs
(the characters of the Rust string literal there, braces included). -/
def separatorPunct : List Char :=
  [';', '\x7b', '\x7d', ' ', '<', '>', '(', ')', '[', ']', ',', '.',
   '+', '-', '/', '*', '=', '-', '%']

/-- fn is_separator of src/row.rs. -/
def isSeparator (c : Char) : Bool :=
  isControlChar c || c = '\r' || c = '\n' || isWhitespaceChar c ||
  separatorPunct.contains c

/-- Grapheme_Cluster_Break = Extend, restricted to the combining
diacritical marks; see the header comment on the grapheme model. -/
def isExtendChar (c : Char) : Bool :=
  0x300 ≤ c.toNat && c.toNat ≤ 0x36f

/-- Helper for clusters: cur is the current (reversed) cluster being
accumulated, an Extend character joins it, any other character starts a
new cluster (UAX 29 rule GB9). -/
def clustersAux (cur : List Char) : List Char → List (List Char)
  | [] => [cur.reverse]
  | c :: cs =>
    if isExtendChar c then clustersAux (c :: cur) cs
    else cur.reverse :: clustersAux [c] cs

/-- Model of the graphemes(true) iterator of the unicode-segmentation
crate: the list of extended grapheme clusters of a character list. -/
def clusters : List Char → List (List Char)
  | [] => []
  | c :: cs => clustersAux [c] cs

/-- Model of s.graphemes(true).count(): the number of extended grapheme
clusters. -/
def graphemeCount (s : List Char) : Nat :=
  (clusters s).length

/-- Number of bytes of the UTF-8 encoding of one Unicode scalar value
(what Rust str len counts per char). -/
def utf8CharLen (c : Char) : Nat :=
  if c.toNat < 0x80 then 1
  else if c.toNat < 0x800 then 2
  else if c.toNat < 0x10000 then 3
  else 4

/-- Model of Rust str::len : the UTF-8 byte length of a string. -/
def utf8Len (s : List Char) : Nat :=
  (s.map utf8CharLen).sum

/-- Decidable prefix test on character lists (q is a prefix of l). -/
def isPfx : List Char → List Char → Bool
  | [], _ => true
  | _ :: _, [] => false
  | a :: as_, b :: bs => a = b && isPfx as_ bs

/-- Smallest character index at which q occurs in hay (models the
position of the occurrence that str::find returns). -/
def firstMatch (hay q : List Char) : Option Nat :=
  if isPfx q hay then some 0
  else
    match hay with
    | [] => none
    | _ :: t => (firstMatch t q).map (· + 1)

/-- Largest character index at which q occurs in hay (models the
position of the occurrence that str::rfind returns). -/
def lastMatch (hay q : List Char) : Option Nat :=
  match hay with
  | [] => if isPfx q [] then some 0 else none
  | _ :: t =>
    match (lastMatch t q).map (· + 1) with
    | some k => some k
    | none => if isPfx q hay then some 0 else none

/-- Index of the first occurrence of a value in a list of naturals
(mirrors the linear search of the grapheme_indices loop in Row::find). -/
def posOf? (b : Nat) : List Nat → Option Nat
  | [] => none
  | x :: xs => if x = b then some 0 else (posOf? b xs).map (· + 1)

/-- Byte offsets at which the successive grapheme clusters start
(the first components of the grapheme_indices(true) iterator). -/
def clusterStarts : List (List Char) → List Nat
  | [] => []
  | g :: gs => 0 :: (clusterStarts gs).map (· + utf8Len g)

/-- Row::find of src/row.rs, on the content and the cached length of a
row: grapheme-aware substring search.  The byte index returned by
find / rfind is mapped back to the ordinal of the grapheme cluster that
starts at that byte offset, if any. -/
def rowFind (s : List Char) (len : Nat) (q : List Char) (at_ : Nat)
    (direction : SearchDirection) : Option Nat :=
  if at_ > len ∨ q = [] then none
  else
    let start := if direction = SearchDirection.forward then at_ else 0
    let stop := if direction = SearchDirection.forward then len else at_
    let substr := (((clusters s).drop start).take (stop - start)).flatten
    let mbi :=
      if direction = SearchDirection.forward then
        (firstMatch substr q).map (fun k => utf8Len (substr.take k))
      else
        (lastMatch substr q).map (fun k => utf8Len (substr.take k))
    match mbi with
    | none => none
    | some b => (posOf? b (clusterStarts (clusters substr))).map (start + ·)

/-- Row struct of src/row.rs. -/
structure Row where
  string : List Char
  highlight : List Highlight
  is_highlighted : Bool
  len : Nat
deriving DecidableEq, Repr

/-- From impl for Row (Row::from of a string slice). -/
def Row.ofString (s : List Char) : Row :=
  { string := s, highlight := [], is_highlighted := false,
    len := graphemeCount s }

/-- Default impl for Row (derived Default in src/row.rs). -/
def Row.default : Row :=
  { string := [], highlight := [], is_highlighted := false, len := 0 }

/-- Row::insert of src/row.rs.  If at is not below the cached length the
character is pushed at the end; otherwise the grapheme iteration splices
the character before cluster number at and recounts the length. -/
def Row.insert (r : Row) (at_ : Nat) (c : Char) : Row :=
  if at_ ≥ r.len then
    { r with string := r.string ++ [c], len := r.len + 1 }
  else
    let cs := clusters r.string
    { r with
      string := (cs.take at_).flatten ++ c :: (cs.drop at_).flatten,
      len := cs.length + (if at_ < cs.length then 1 else 0) }

/-- Row::delete of src/row.rs: no-op when at is not below the cached
length, otherwise the grapheme at index at is removed and the length
recounted. -/
def Row.delete (r : Row) (at_ : Nat) : Row :=
  if at_ ≥ r.len then r
  else
    let cs := (clusters r.string).eraseIdx at_
    { r with string := cs.flatten, len := cs.length }

/-- Row::append of src/row.rs: concatenates the other content and adds
the cached lengths. -/
def Row.append (r other : Row) : Row :=
  { r with string := r.string ++ other.string, len := r.len + other.len }

/-- Row::prepend_str of src/row.rs: prepends a string slice and adds its
Rust len, i.e. its UTF-8 byte length, to the cached length. -/
def Row.prepend_str (r : Row) (s : List Char) : Row :=
  { r with string := s ++ r.string, len := r.len + utf8Len s }

/-- Row::split of src/row.rs: first component is the truncated receiver,
second is the returned new row holding the clusters from index at on. -/
def Row.split (r : Row) (at_ : Nat) : Row × Row :=
  let cs := clusters r.string
  ({ r with
      string := (cs.take at_).flatten,
      len := (cs.take at_).length,
      is_highlighted := false },
   { string := (cs.drop at_).flatten,
     len := (cs.drop at_).length,
     is_highlighted := false,
     highlight := [] })

/-- Row::get_prefix_len of src/row.rs: number of leading grapheme
clusters equal to the given slice. -/
def Row.get_prefix_len (r : Row) (s : List Char) : Nat :=
  ((clusters r.string).takeWhile (fun g => g = s)).length

/-- Row::find of src/row.rs. -/
def Row.find (r : Row) (q : List Char) (at_ : Nat)
    (direction : SearchDirection) : Option Nat :=
  rowFind r.string r.len q at_ direction

/-- FileType enum of src/file.rs. -/
inductive FileType where
  | c
  | rust
  | text
deriving DecidableEq, Repr

/-- HighlightOptions struct of src/file.rs. -/
structure HighlightOptions where
  file_type : Option FileType
  numbers : Bool
  strings : Bool
  characters : Bool
  comments : Bool
  multiline_comments : Bool
  keywords1 : List (List Char)
  keywords2 : List (List Char)
deriving DecidableEq, Repr

/-- Default impl for HighlightOptions (derived Default in src/file.rs):
everything disabled, empty keyword lists. -/
def HighlightOptions.default : HighlightOptions :=
  { file_type := Option.none, numbers := false, strings := false,
    characters := false, comments := false, multiline_comments := false,
    keywords1 := [], keywords2 := [] }

/-- Keyword lists and flags built by HighlightOptions::from for a Rust
file (extension rs). -/
def rustOptions : HighlightOptions :=
  { file_type := some FileType.rust
    numbers := true
    strings := true
    characters := true
    comments := true
    multiline_comments := true
    keywords1 :=
      ["as".toList, "break".toList, "const".toList, "continue".toList,
       "crate".toList, "else".toList, "enum".toList, "extern".toList,
       "false".toList, "fn".toList, "for".toList, "if".toList,
       "impl".toList, "in".toList, "let".toList, "loop".toList,
       "match".toList, "mod".toList, "move".toList, "mut".toList,
       "pub".toList, "ref".toList, "return".toList, "self".toList,
       "Self".toList, "static".toList, "struct".toList, "super".toList,
       "trait".toList, "true".toList, "type".toList, "unsafe".toList,
       "use".toList, "where".toList, "while".toList, "dyn".toList,
       "abstract".toList, "become".toList, "box".toList, "do".toList,
       "final".toList, "macro".toList, "override".toList, "priv".toList,
       "typeof".toList, "unsized".toList, "virtual".toList,
       "yield".toList, "async".toList, "await".toList, "try".toList]
    keywords2 :=
      ["bool".toList, "char".toList, "i8".toList, "i16".toList,
       "i32".toList, "i64".toList, "isize".toList, "u8".toList,
       "u16".toList, "u32".toList, "u64".toList, "usize".toList,
       "f32".toList, "f64".toList] }

/-- Options whose only enabled classification is the primary keyword
list containing exactly fn; used to state the keyword-anchoring claim
without interference from the string, comment and number passes. -/
def kwOnlyOptions : HighlightOptions :=
  { file_type := Option.none, numbers := false, strings := false,
    characters := false, comments := false, multiline_comments := false,
    keywords1 := ["fn".toList], keywords2 := [] }

/-- Index search of the two multiline-comment loops of src/row.rs:
those loops test chars at n-1 and n for each successive n.  Threading
the previous character, findClose prev l returns the offset of the
first position n in l such that the character before it is a star and
the character at it is a slash. -/
def findClose (prev : Char) : List Char → Option Nat
  | [] => Option.none
  | c :: rest =>
    if prev = '*' ∧ c = '/' then some 0
    else (findClose c rest).map (· + 1)

/-- Row::highlight_numbers of src/row.rs, decision part: at a separator
position i, returns the advance count when the branch fires.  count is
one plus the run of ascii digits after i; the branch fires when the
character after the run is a separator, or when the run reaches the end
of the row and its last character is a digit. -/
def numberFire (hl : HighlightOptions) (chars : List Char) (i : Nat) :
    Option Nat :=
  if hl.numbers then
    let count := 1 + ((chars.drop (i + 1)).takeWhile (fun ch => ch.isDigit)).length
    match chars[i + count]? with
    | some w => if isSeparator w then some count else Option.none
    | Option.none =>
      match chars[i + count - 1]? with
      | some w => if w.isDigit then some count else Option.none
      | Option.none => Option.none
  else Option.none

/-- Shared decision part of Row::highlight_primary_keywords and
Row::highlight_secondary_keywords of src/row.rs: at a separator
position i, the run of non-separator characters after i is matched
against the keyword list; on an exact match the branch fires and
advances by one plus the run length. -/
def kwFire (kws : List (List Char)) (chars : List Char) (i : Nat) :
    Option Nat :=
  if kws ≠ [] then
    let run := (chars.drop (i + 1)).takeWhile (fun ch => !(isSeparator ch))
    if run ∈ kws then some (1 + run.length) else Option.none
  else Option.none

/-- Single left-to-right pass of Row::highlight of src/row.rs, from
index i, with the carried inside-multiline-comment flag inML.  Returns
the highlight entries pushed from this point on and whether the scan
exited through one of the return-true paths (unterminated multiline
comment).  fuel bounds the number of loop iterations; every iteration
advances i by at least one, so any fuel above the length of chars is
sufficient for a scan started at 0 (the caller passes length + 1). -/
def scanAux (hl : HighlightOptions) (chars : List Char) :
    Nat → Nat → Bool → List Highlight × Bool
  | 0, _, _ => ([], false)
  | fuel + 1, i, inML =>
    match chars[i]? with
    | Option.none => ([], false)
    | some c =>
      if hl.multiline_comments ∧ inML then
        -- highlight_ml_comment_end: scan chars[n-1], chars[n] for n from 1
        match findClose (chars.headD ' ') chars.tail with
        | some j =>
          -- close found at n = j + 1: n entries pushed, index advanced by n
          let r := scanAux hl chars fuel (i + (j + 1)) false
          (List.replicate (j + 1) Highlight.mlComment ++ r.1, r.2)
        | Option.none =>
          -- no close: length - 1 entries pushed, highlight returns true
          (List.replicate (chars.length - 1) Highlight.mlComment, true)
      else if hl.multiline_comments ∧ c = '/' ∧ chars[i + 1]? = some '*' then
        -- highlight_ml_comment_beginning, pair scan from n = i + 2
        let count :=
          match findClose '*' (chars.drop (i + 2)) with
          | some j => j + 3          -- close at n = i + 2 + j, count = n - i + 1
          | Option.none => chars.length - i
        if chars.length - 1 ≤ count then
          -- the (true, true) return of the helper: highlight returns true
          (List.replicate count Highlight.mlComment, true)
        else
          let r := scanAux hl chars fuel (i + count) inML
          (List.replicate count Highlight.mlComment ++ r.1, r.2)
      else if hl.comments ∧ c = '/' ∧ chars[i + 1]? = some '/' then
        -- highlight_comment: rest of the row, index advanced to the end
        (List.replicate (chars.length - i) Highlight.comment, false)
      else if hl.strings ∧ c = '"' ∧
          ((chars.drop (i + 1)).takeWhile (fun ch => ch ≠ '"')).length
            < (chars.drop (i + 1)).length then
        -- highlight_strings with a closing quote at relative offset count
        let count := 1 + ((chars.drop (i + 1)).takeWhile (fun ch => ch ≠ '"')).length
        let r := scanAux hl chars fuel (i + count + 1) inML
        (List.replicate (count + 1) Highlight.string ++ r.1, r.2)
      else if hl.characters ∧ c = '\'' ∧
          ((chars.drop (i + 1)).takeWhile (fun ch => ch ≠ '\'')).length
            < (chars.drop (i + 1)).length then
        -- highlight_character with a closing quote at relative offset count
        let count := 1 + ((chars.drop (i + 1)).takeWhile (fun ch => ch ≠ '\'')).length
        let r := scanAux hl chars fuel (i + count + 1) inML
        (List.replicate (count + 1) Highlight.character ++ r.1, r.2)
      else if isSeparator c then
        match numberFire hl chars i with
        | some count =>
          let r := scanAux hl chars fuel (i + count) inML
          (Highlight.none :: List.replicate (count - 1) Highlight.number ++ r.1, r.2)
        | Option.none =>
          match kwFire hl.keywords1 chars i with
          | some count =>
            let r := scanAux hl chars fuel (i + count) inML
            (Highlight.none :: List.replicate (count - 1) Highlight.keyword1 ++ r.1, r.2)
          | Option.none =>
            match kwFire hl.keywords2 chars i with
            | some count =>
              let r := scanAux hl chars fuel (i + count) inML
              (Highlight.none :: List.replicate (count - 1) Highlight.keyword2 ++ r.1, r.2)
            | Option.none =>
              let r := scanAux hl chars fuel (i + 1) inML
              (Highlight.none :: r.1, r.2)
      else
        let r := scanAux hl chars fuel (i + 1) inML
        (Highlight.none :: r.1, r.2)

/-- Iterated assignment helper: starting at index a, set the next n
positions to Match. -/
def setRangeAux : Nat → Nat → List Highlight → List Highlight
  | 0, _, hls => hls
  | n + 1, a, hls => setRangeAux n (a + 1) (hls.set a Highlight.matched)

/-- The assignments self.highlight[i] = Match for i in a..b of
Row::highlight_match (b - a iterations; every index written is in
bounds whenever the loop runs, so List.set models the Vec assignment
exactly). -/
def setRange (hls : List Highlight) (a b : Nat) : List Highlight :=
  setRangeAux (b - a) a hls

/-- Loop of Row::highlight_match of src/row.rs: repeatedly find the next
forward occurrence of the word from index i on and overwrite the matched
span with Match.  Every iteration strictly increases i (the match starts
at or after i and the word has at least one grapheme), and the search
fails as soon as i exceeds len, so fuel len + 2 is sufficient. -/
def hlMatchLoop (s : List Char) (len : Nat) (q : List Char) :
    Nat → Nat → List Highlight → List Highlight
  | 0, _, hls => hls
  | fuel + 1, i, hls =>
    match rowFind s len q i SearchDirection.forward with
    | Option.none => hls
    | some m =>
      hlMatchLoop s len q fuel (m + graphemeCount q)
        (setRange hls m (m + graphemeCount q))

/-- Row::highlight_match of src/row.rs. -/
def hlMatch (s : List Char) (len : Nat) (word : Option (List Char))
    (hls : List Highlight) : List Highlight :=
  match word with
  | Option.none => hls
  | some w => if w = [] then hls else hlMatchLoop s len w (len + 2) 0 hls

/-- The spans the highlight_match loop overwrites: occurrences of q
taken leftmost-forward, each next search starting at the end of the
previous match; a pair (a, b) stands for positions a ≤ j < b. -/
def matchSpans (s : List Char) (len : Nat) (q : List Char) :
    Nat → Nat → List (Nat × Nat)
  | 0, _ => []
  | fuel + 1, i =>
    match rowFind s len q i SearchDirection.forward with
    | Option.none => []
    | some m => (m, m + graphemeCount q) :: matchSpans s len q fuel (m + graphemeCount q)

/-- Membership of a position in one of the match spans. -/
def inSpans (spans : List (Nat × Nat)) (j : Nat) : Bool :=
  spans.any (fun p => p.1 ≤ j && j < p.2)

/-- Highlight class at a position: the render path reads the highlight
vector with get(index).unwrap_or(None), so a missing entry counts as
None. -/
def classAt (hls : List Highlight) (i : Nat) : Highlight :=
  hls.getD i Highlight.none

/-- Row::highlight of src/row.rs: runs the scan from index 0 with the
carried flag; on one of the return-true paths the entries pushed so far
become the highlight vector and the match overlay is skipped, otherwise
the overlay runs and the call returns false. -/
def Row.runHighlight (r : Row) (hl : HighlightOptions)
    (word : Option (List Char)) (startWithComment : Bool) : Row × Bool :=
  let chars := r.string
  let sr := scanAux hl chars (chars.length + 1) 0 startWithComment
  if sr.2 then ({ r with highlight := sr.1 }, true)
  else ({ r with highlight := hlMatch r.string r.len word sr.1 }, false)

/-- File struct of src/file.rs. -/
structure File where
  rows : List Row
  filename : Option (List Char)
  dirty : Bool
  hl_opts : HighlightOptions
deriving DecidableEq, Repr

/-- File::default of src/file.rs. -/
def File.default : File :=
  { rows := [], filename := Option.none, dirty := false,
    hl_opts := HighlightOptions.default }

/-- File::unhighlight_rows of src/file.rs. -/
def File.unhighlight_rows (f : File) (start : Nat) : File :=
  { f with
    rows := f.rows.mapIdx (fun idx row =>
      if start - 1 ≤ idx then { row with is_highlighted := false } else row) }

/-- Insertion into a Vec at an index (Vec::insert); the index is at most
the length at every use below, where this equals the Rust behaviour. -/
def listInsertAt (a : Row) : Nat → List Row → List Row
  | 0, l => a :: l
  | _ + 1, [] => [a]
  | n + 1, x :: xs => x :: listInsertAt a n xs

/-- File::insert_newline of src/file.rs: possibly push an empty row for
the append point, then split the target row at the caret, prepend the
leading-space indent of the original row to the new row, and insert the
new row after the original. -/
def File.insert_newline (f : File) (at_ : Position) : File :=
  if at_.y > f.rows.length then f
  else
    let rows := if at_.y = f.rows.length then f.rows ++ [Row.default] else f.rows
    let current := rows.getD at_.y Row.default
    let num_spaces := current.get_prefix_len [' ']
    let pair := current.split at_.x
    let new_row := pair.2.prepend_str (List.replicate num_spaces ' ')
    { f with rows := listInsertAt new_row (at_.y + 1) (rows.set at_.y pair.1) }

/-- File::insert of src/file.rs. -/
def File.insert (f : File) (at_ : Position) (c : Char) : File :=
  if at_.y > f.rows.length then f
  else
    let f1 := { f with dirty := true }
    let f2 :=
      if c = '\n' then f1.insert_newline at_
      else if at_.y = f1.rows.length then
        { f1 with rows := f1.rows ++ [Row.default.insert 0 c] }
      else
        { f1 with rows := f1.rows.set at_.y ((f1.rows.getD at_.y Row.default).insert at_.x c) }
    f2.unhighlight_rows at_.y

/-- File::delete of src/file.rs.  The guard only skips row indices
strictly greater than the row count; below it the code indexes
self.rows[at.y] directly, which panics (modelled as none) when at.y
equals the row count, including the empty buffer with at.y = 0. -/
def File.delete (f : File) (at_ : Position) : Option File :=
  if at_.y > f.rows.length then some f
  else
    match f.rows[at_.y]? with
    | Option.none => Option.none    -- self.rows[at.y] panics here
    | some row =>
      let f1 := { f with dirty := true }
      if at_.x = row.len ∧ at_.y + 1 < f1.rows.length then
        match f1.rows[at_.y + 1]? with
        | Option.none => Option.none
        | some next_row =>
          some { f1 with
                 rows := (f1.rows.eraseIdx (at_.y + 1)).set at_.y (row.append next_row) }
      else
        some { f1 with rows := f1.rows.set at_.y (row.delete at_.x) }

/-- Effects of a successful File::save of src/file.rs: the value
returned in Ok, the character stream written to the file, and the state
afterwards.  When no filename is set nothing is written, nothing
changes, and Ok 0 is returned.  The reassignment of the file_type from
the filename is omitted: it affects neither the rows, nor the bytes
written, nor the returned count. -/
structure SaveOutcome where
  file : File
  written : List Char
  result : Nat
deriving DecidableEq, Repr

/-- File::save of src/file.rs (I/O errors out of scope: the write is
assumed to succeed, as the claim about it supposes).  The loop adds each
row's cached length to nbytes and writes the row's bytes followed by one
newline byte. -/
def File.save (f : File) : SaveOutcome :=
  match f.filename with
  | Option.none => { file := f, written := [], result := 0 }
  | some _ =>
    { file := { f with dirty := false }
      written := (f.rows.map (fun r => r.string ++ ['\n'])).flatten
      result := (f.rows.map (fun r => r.len)).sum }

/-- The precomposed character e-acute U+00E9: one grapheme cluster whose
UTF-8 encoding is two bytes long. -/
def eAcute : Char := Char.ofNat 0xe9

/-- Whether the character at index k is a separator (false when the
index is out of range). -/
def sepAtB (chars : List Char) (k : Nat) : Bool :=
  match chars[k]? with
  | some c => isSeparator c
  | Option.none => false

/-- The run of non-separator characters immediately after index sIdx
(the candidate keyword the scanner matches at a separator). -/
def kwRun (chars : List Char) (sIdx : Nat) : List Char :=
  (chars.drop (sIdx + 1)).takeWhile (fun ch => !(isSeparator ch))

/-- Position j is inside a keyword span the scanner produces when
started with the kwOnlyOptions list: some separator position sIdx at or
after lo precedes it, and j lies inside the run after sIdx, which
matches the primary keyword list exactly. -/
def kwHitB (chars : List Char) (lo j : Nat) : Bool :=
  (List.range j).any (fun sIdx =>
    decide (lo ≤ sIdx) && sepAtB chars sIdx &&
    decide (j < sIdx + 1 + (kwRun chars sIdx).length) &&
    decide (kwRun chars sIdx ∈ kwOnlyOptions.keywords1))

/-- A maximal run of non-separator characters occupying positions
s ≤ j < e of the row: all its characters exist and are non-separators,
and it is bounded on the left by the row start or a separator and on the
right by the row end or a separator. -/
def maximalRun (chars : List Char) (s e : Nat) : Prop :=
  s < e ∧ e ≤ chars.length ∧
  (∀ j, s ≤ j → j < e → sepAtB chars j = false ∧ j < chars.length) ∧
  (s = 0 ∨ sepAtB chars (s - 1) = true) ∧
  (e = chars.length ∨ sepAtB chars e = true)

/-- Executable form of maximalRun (so that concrete instances evaluate). -/
def maximalRunB (chars : List Char) (s e : Nat) : Bool :=
  decide (s < e) && decide (e ≤ chars.length) &&
  ((List.range' s (e - s)).all
    (fun j => !(sepAtB chars j) && decide (j < chars.length))) &&
  (decide (s = 0) || sepAtB chars (s - 1)) &&
  (decide (e = chars.length) || sepAtB chars e)

/-- The query occurs at grapheme column c of the row content: it is a
prefix of the character stream from grapheme cluster c on. -/
def occAt (s q : List Char) (c : Nat) : Prop :=
  isPfx q (((clusters s).drop c).flatten) = true

/-- The query occurs at grapheme column c within the window of the
first stop grapheme clusters (what a backward search inspects). -/
def occWithin (s q : List Char) (stop c : Nat) : Prop :=
  isPfx q ((((clusters s).take stop).drop c).flatten) = true

/-- Shape every grapheme cluster the segmentation produces has: a head
character followed by Extend characters. -/
def clusterShape (g : List Char) : Prop :=
  ∃ h t, g = h :: t ∧ ∀ x ∈ t, isExtendChar x = true

/-- Shape of every cluster after the first: its head character is not an
Extend character (it started a new cluster). -/
def strictCluster (g : List Char) : Prop :=
  ∃ h t, g = h :: t ∧ isExtendChar h = false ∧ ∀ x ∈ t, isExtendChar x = true

/-! Supporting lemmas: lists. -/

theorem takeWhile_spec_at {p : Char → Bool} {l : List Char} {k : Nat}
    (h : k < (l.takeWhile p).length) :
    ∃ a, l[k]? = some a ∧ p a = true := by
  induction l generalizing k with
  | nil => simp [List.takeWhile] at h
  | cons x xs ih =>
    by_cases hp : p x
    · cases k with
      | zero => exact ⟨x, by simp, hp⟩
      | succ k =>
        rw [List.takeWhile_cons, if_pos hp] at h
        simp only [List.length_cons] at h
        have := ih (Nat.lt_of_succ_lt_succ h)
        simpa using this
    · rw [List.takeWhile_cons, if_neg hp] at h
      simp at h

theorem takeWhile_ge_of_all {p : Char → Bool} {l : List Char} {n : Nat}
    (h : ∀ k, k < n → ∃ a, l[k]? = some a ∧ p a = true) :
    n ≤ (l.takeWhile p).length := by
  induction l generalizing n with
  | nil =>
    cases n with
    | zero => simp
    | succ n => obtain ⟨a, ha, _⟩ := h 0 (Nat.succ_pos n); simp at ha
  | cons x xs ih =>
    cases n with
    | zero => simp
    | succ n =>
      obtain ⟨a, ha, hpa⟩ := h 0 (Nat.succ_pos n)
      simp only [List.getElem?_cons_zero, Option.some.injEq] at ha
      subst ha
      rw [List.takeWhile_cons, if_pos hpa]
      simp only [List.length_cons]
      have := ih (n := n) (fun k hk => by
        have := h (k + 1) (Nat.succ_lt_succ hk)
        simpa using this)
      omega

theorem takeWhile_eq_take (p : Char → Bool) (l : List Char) :
    l.takeWhile p = l.take ((l.takeWhile p).length) := by
  induction l with
  | nil => simp
  | cons x xs ih =>
    by_cases hp : p x
    · rw [List.takeWhile_cons, if_pos hp]
      simp only [List.length_cons, List.take]
      exact congrArg (x :: ·) ih
    · rw [List.takeWhile_cons, if_neg hp]
      simp

theorem listInsertAt_length (a : Row) :
    ∀ (n : Nat) (l : List Row), n ≤ l.length →
      (listInsertAt a n l).length = l.length + 1 := by
  intro n
  induction n with
  | zero => intro l _; simp [listInsertAt]
  | succ n ih =>
    intro l hl
    cases l with
    | nil => simp at hl
    | cons x xs =>
      simp only [listInsertAt, List.length_cons]
      rw [ih xs (by simpa using hl)]

theorem range'_split (a : Nat) :
    ∀ (i b : Nat), List.range' i (a + b) = List.range' i a ++ List.range' (i + a) b := by
  induction a with
  | zero => intro i b; simp
  | succ a ih =>
    intro i b
    have h1 : a + 1 + b = (a + b) + 1 := by omega
    rw [h1, List.range'_succ, ih (i + 1) b, List.range'_succ]
    have h2 : i + 1 + a = i + (a + 1) := by omega
    rw [h2, List.cons_append]

theorem flatten_length_ge {L : List (List Char)} (h : ∀ g ∈ L, g ≠ []) :
    L.length ≤ L.flatten.length := by
  induction L with
  | nil => simp
  | cons g gs ih =>
    simp only [List.flatten_cons, List.length_append, List.length_cons]
    have hg : g ≠ [] := h g (by simp)
    have hlen : 1 ≤ g.length := by
      cases g with
      | nil => simp at hg
      | cons _ _ => simp
    have := ih (fun x hx => h x (by simp [hx]))
    omega

theorem flatten_take_length_lt {L : List (List Char)}
    (h : ∀ g ∈ L, g ≠ []) {a b : Nat} (hab : a < b) (hb : b ≤ L.length) :
    ((L.take a).flatten).length < ((L.take b).flatten).length := by
  induction L generalizing a b with
  | nil => simp at hb; omega
  | cons g gs ih =>
    cases b with
    | zero => omega
    | succ b =>
      cases a with
      | zero =>
        simp only [List.take_zero, List.flatten_nil, List.length_nil, List.take,
          List.flatten_cons, List.length_append]
        have hg : g ≠ [] := h g (by simp)
        have : 1 ≤ g.length := by
          cases g with
          | nil => simp at hg
          | cons _ _ => simp
        omega
      | succ a =>
        simp only [List.take, List.flatten_cons, List.length_append]
        have := ih (fun x hx => h x (by simp [hx]))
          (a := a) (b := b) (by omega) (by simpa using hb)
        omega

theorem flatten_take_length_le (L : List (List Char)) (a : Nat) :
    ((L.take a).flatten).length ≤ L.flatten.length := by
  have h : L.flatten = (L.take a).flatten ++ (L.drop a).flatten := by
    rw [← List.flatten_append, List.take_append_drop]
  rw [h, List.length_append]
  omega


/-! Supporting lemmas: grapheme clusters. -/

theorem clustersAux_flatten : ∀ (l cur : List Char),
    (clustersAux cur l).flatten = cur.reverse ++ l := by
  intro l
  induction l with
  | nil => intro cur; simp [clustersAux]
  | cons c cs ih =>
    intro cur
    by_cases hc : isExtendChar c
    · simp [clustersAux, hc, ih]
    · simp [clustersAux, hc, ih]

theorem clusters_flatten (s : List Char) : (clusters s).flatten = s := by
  cases s with
  | nil => simp [clusters]
  | cons c cs => simp [clusters, clustersAux_flatten]

theorem clustersAux_ne_nil (l cur : List Char) : clustersAux cur l ≠ [] := by
  induction l generalizing cur with
  | nil => simp [clustersAux]
  | cons c cs ih =>
    by_cases hc : isExtendChar c
    · simpa [clustersAux, hc] using ih (c :: cur)
    · simp [clustersAux, hc]

theorem clusters_pos {q : List Char} (hq : q ≠ []) : 0 < (clusters q).length := by
  cases q with
  | nil => simp at hq
  | cons c cs =>
    simp only [clusters]
    have h := clustersAux_ne_nil cs [c]
    cases hcl : clustersAux [c] cs with
    | nil => exact absurd hcl h
    | cons _ _ => simp

theorem clustersAux_length_le : ∀ (l cur : List Char),
    (clustersAux cur l).length ≤ 1 + l.length := by
  intro l
  induction l with
  | nil => intro cur; simp [clustersAux]
  | cons c cs ih =>
    intro cur
    by_cases hc : isExtendChar c
    · have h := ih (c :: cur)
      simp only [clustersAux, hc, if_pos, List.length_cons]
      omega
    · have h := ih [c]
      simp only [clustersAux, hc, if_neg, List.length_cons]
      simp only [Bool.false_eq_true, if_false, List.length_cons]
      omega

theorem clusters_length_le (s : List Char) : (clusters s).length ≤ s.length := by
  cases s with
  | nil => simp [clusters]
  | cons c cs =>
    simp only [clusters, List.length_cons]
    have h := clustersAux_length_le cs [c]
    omega

theorem graphemeCount_le_length (s : List Char) : graphemeCount s ≤ s.length :=
  clusters_length_le s

theorem graphemeCount_pos {q : List Char} (hq : q ≠ []) : 0 < graphemeCount q :=
  clusters_pos hq

theorem clustersAux_mem_ne_nil : ∀ (l cur : List Char), cur ≠ [] →
    ∀ g ∈ clustersAux cur l, g ≠ [] := by
  intro l
  induction l with
  | nil =>
    intro cur hcur g hg
    simp only [clustersAux, List.mem_singleton] at hg
    subst hg
    simpa using hcur
  | cons c cs ih =>
    intro cur hcur g hg
    by_cases hc : isExtendChar c
    · simp only [clustersAux, hc, if_pos] at hg
      exact ih (c :: cur) (by simp) g hg
    · simp only [clustersAux, hc, if_neg, Bool.false_eq_true, if_false,
        List.mem_cons] at hg
      rcases hg with hg | hg
      · subst hg; simpa using hcur
      · exact ih [c] (by simp) g hg

theorem clusters_mem_ne_nil {s : List Char} : ∀ g ∈ clusters s, g ≠ [] := by
  cases s with
  | nil => simp [clusters]
  | cons c cs => exact clustersAux_mem_ne_nil cs [c] (by simp)

theorem clusters_cons_def (c : Char) (cs : List Char) :
    clusters (c :: cs) = clustersAux [c] cs := rfl

theorem clustersAux_eq : ∀ (l cur : List Char),
    clustersAux cur l =
      (cur.reverse ++ l.takeWhile isExtendChar) :: clusters (l.dropWhile isExtendChar) := by
  intro l
  induction l with
  | nil => intro cur; simp [clustersAux, clusters]
  | cons c cs ih =>
    intro cur
    rw [List.takeWhile_cons, List.dropWhile_cons]
    by_cases hc : isExtendChar c
    · rw [if_pos hc, if_pos hc]
      simp only [clustersAux, hc, if_pos]
      rw [ih (c :: cur)]
      simp
    · rw [if_neg hc, if_neg hc]
      simp only [clustersAux, hc, if_neg, Bool.false_eq_true, if_false]
      rw [clusters_cons_def]
      simp

theorem clusters_cons (c : Char) (cs : List Char) :
    clusters (c :: cs) =
      (c :: cs.takeWhile isExtendChar) :: clusters (cs.dropWhile isExtendChar) := by
  rw [clusters_cons_def, clustersAux_eq]
  simp

theorem dropWhile_head_not {p : Char → Bool} : ∀ (l : List Char) (c : Char)
    (t : List Char), l.dropWhile p = c :: t → p c = false := by
  intro l
  induction l with
  | nil => intro c t h; simp at h
  | cons x xs ih =>
    intro c t h
    rw [List.dropWhile_cons] at h
    by_cases hx : p x
    · rw [if_pos hx] at h
      exact ih c t h
    · rw [if_neg hx] at h
      cases h
      simpa using hx

theorem dropWhile_length_le (p : Char → Bool) (l : List Char) :
    (l.dropWhile p).length ≤ l.length := by
  induction l with
  | nil => simp
  | cons x xs ih =>
    rw [List.dropWhile_cons]
    by_cases hx : p x
    · rw [if_pos hx]
      simp only [List.length_cons]
      omega
    · rw [if_neg hx]

theorem clusters_shape_bounded : ∀ (n : Nat) (s : List Char), s.length ≤ n →
    ∀ g ∈ clusters s, clusterShape g := by
  intro n
  induction n with
  | zero =>
    intro s hs
    have h0 : s = [] := List.length_eq_zero.mp (Nat.le_zero.mp hs)
    subst h0
    simp [clusters]
  | succ n ih =>
    intro s hs g hg
    cases s with
    | nil => simp [clusters] at hg
    | cons c cs =>
      rw [clusters_cons] at hg
      rcases List.mem_cons.mp hg with hg | hg
      · subst hg
        exact ⟨c, cs.takeWhile isExtendChar, rfl,
          fun x hx => List.mem_takeWhile_imp hx⟩
      · have hlen : (cs.dropWhile isExtendChar).length ≤ n := by
          have h1 := dropWhile_length_le isExtendChar cs
          simp only [List.length_cons] at hs
          omega
        exact ih (cs.dropWhile isExtendChar) hlen g hg

theorem clusters_shape (s : List Char) : ∀ g ∈ clusters s, clusterShape g :=
  clusters_shape_bounded s.length s le_rfl

theorem clusters_strict_bounded : ∀ (n : Nat) (s : List Char), s.length ≤ n →
    (s = [] ∨ ∃ c cs, s = c :: cs ∧ isExtendChar c = false) →
    ∀ g ∈ clusters s, strictCluster g := by
  intro n
  induction n with
  | zero =>
    intro s hs _
    have h0 : s = [] := List.length_eq_zero.mp (Nat.le_zero.mp hs)
    subst h0
    simp [clusters]
  | succ n ih =>
    intro s hs hh g hg
    rcases hh with hh | ⟨c, cs, hcc, hc⟩
    · subst hh; simp [clusters] at hg
    · subst hcc
      rw [clusters_cons] at hg
      rcases List.mem_cons.mp hg with hg | hg
      · subst hg
        exact ⟨c, cs.takeWhile isExtendChar, rfl, hc,
          fun x hx => List.mem_takeWhile_imp hx⟩
      · have hlen : (cs.dropWhile isExtendChar).length ≤ n := by
          have h1 := dropWhile_length_le isExtendChar cs
          simp only [List.length_cons] at hs
          omega
        have hshape : (cs.dropWhile isExtendChar) = [] ∨
            ∃ d ds, cs.dropWhile isExtendChar = d :: ds ∧ isExtendChar d = false := by
          cases hdw : cs.dropWhile isExtendChar with
          | nil => exact Or.inl rfl
          | cons d ds => exact Or.inr ⟨d, ds, rfl, dropWhile_head_not cs d ds hdw⟩
        exact ih (cs.dropWhile isExtendChar) hlen hshape g hg

theorem clusters_tail_strict (s : List Char) :
    ∀ g ∈ (clusters s).drop 1, strictCluster g := by
  cases s with
  | nil => simp [clusters]
  | cons c cs =>
    rw [clusters_cons]
    intro g hg
    simp only [List.drop_succ_cons, List.drop_zero] at hg
    have hshape : (cs.dropWhile isExtendChar) = [] ∨
        ∃ d ds, cs.dropWhile isExtendChar = d :: ds ∧ isExtendChar d = false := by
      cases hdw : cs.dropWhile isExtendChar with
      | nil => exact Or.inl rfl
      | cons d ds => exact Or.inr ⟨d, ds, rfl, dropWhile_head_not cs d ds hdw⟩
    exact clusters_strict_bounded (cs.dropWhile isExtendChar).length
      (cs.dropWhile isExtendChar) le_rfl hshape g hg

/-! Supporting lemmas: UTF-8 lengths and byte offsets. -/

theorem utf8CharLen_pos (c : Char) : 1 ≤ utf8CharLen c := by
  unfold utf8CharLen
  split <;> simp_all
  split <;> simp_all
  split <;> simp_all

theorem utf8Len_append (a b : List Char) :
    utf8Len (a ++ b) = utf8Len a + utf8Len b := by
  simp [utf8Len]

theorem length_le_utf8Len (l : List Char) : l.length ≤ utf8Len l := by
  induction l with
  | nil => simp [utf8Len]
  | cons c cs ih =>
    have h := utf8CharLen_pos c
    simp only [utf8Len, List.map_cons, List.sum_cons, List.length_cons]
    simp only [utf8Len] at ih
    omega

theorem utf8Len_take_strict_mono {l : List Char} {a b : Nat}
    (hab : a < b) (hb : b ≤ l.length) :
    utf8Len (l.take a) < utf8Len (l.take b) := by
  have hdecomp : l.take b = l.take a ++ ((l.drop a).take (b - a)) := by
    have hba : b = a + (b - a) := by omega
    rw [hba, List.take_add]
    have hsub : a + (b - a) - a = b - a := by omega
    rw [hsub]
  rw [hdecomp, utf8Len_append]
  have hmidlen : ((l.drop a).take (b - a)).length = b - a := by
    rw [List.length_take, List.length_drop]
    omega
  have h1 : 1 ≤ ((l.drop a).take (b - a)).length := by omega
  have h2 := length_le_utf8Len ((l.drop a).take (b - a))
  omega

theorem utf8Len_take_inj {l : List Char} {a b : Nat}
    (ha : a ≤ l.length) (hb : b ≤ l.length)
    (h : utf8Len (l.take a) = utf8Len (l.take b)) : a = b := by
  rcases Nat.lt_trichotomy a b with hab | hab | hab
  · have := utf8Len_take_strict_mono hab hb
    omega
  · exact hab
  · have := utf8Len_take_strict_mono hab ha
    omega

theorem clusterStarts_length (L : List (List Char)) :
    (clusterStarts L).length = L.length := by
  induction L with
  | nil => simp [clusterStarts]
  | cons g gs ih => simp [clusterStarts, ih]

theorem clusterStarts_get : ∀ (L : List (List Char)) (gi : Nat), gi < L.length →
    (clusterStarts L)[gi]? = some (utf8Len ((L.take gi).flatten)) := by
  intro L
  induction L with
  | nil => intro gi h; simp at h
  | cons g gs ih =>
    intro gi h
    cases gi with
    | zero => simp [clusterStarts, utf8Len]
    | succ gi =>
      simp only [clusterStarts, List.getElem?_cons_succ, List.getElem?_map]
      rw [ih gi (by simpa using h)]
      simp only [Option.map_some', Option.some.injEq, List.take_succ_cons,
        List.flatten_cons, utf8Len_append]
      omega

theorem posOf?_get : ∀ (l : List Nat) (b k : Nat), posOf? b l = some k →
    l[k]? = some b := by
  intro l
  induction l with
  | nil => intro b k h; simp [posOf?] at h
  | cons x xs ih =>
    intro b k h
    by_cases hx : x = b
    · rw [posOf?, if_pos hx] at h
      cases h
      simp [hx]
    · rw [posOf?, if_neg hx] at h
      rw [Option.map_eq_some'] at h
      obtain ⟨k1, hk1, hk⟩ := h
      subst hk
      simpa using ih b k1 hk1

theorem posOf?_lt_length {l : List Nat} {b k : Nat} (h : posOf? b l = some k) :
    k < l.length := by
  have hg := posOf?_get l b k h
  by_contra hk
  rw [List.getElem?_eq_none (by omega)] at hg
  exact Option.noConfusion hg

theorem isPfx_iff_exists (q l : List Char) :
    isPfx q l = true ↔ ∃ t, l = q ++ t := by
  constructor
  · intro h
    induction q generalizing l with
    | nil => exact ⟨l, rfl⟩
    | cons a as_ ih =>
      cases l with
      | nil => simp [isPfx] at h
      | cons b bs =>
        simp only [isPfx, Bool.and_eq_true, decide_eq_true_eq] at h
        obtain ⟨hab, hrest⟩ := h
        obtain ⟨t, ht⟩ := ih bs hrest
        exact ⟨t, by simp [hab, ht]⟩
  · rintro ⟨t, rfl⟩
    induction q with
    | nil => simp [isPfx]
    | cons a as_ ih => simpa [isPfx] using ih

theorem isPfx_length_le {q l : List Char} (h : isPfx q l = true) :
    q.length ≤ l.length := by
  obtain ⟨t, rfl⟩ := (isPfx_iff_exists q l).mp h
  simp

theorem isPfx_nil_false {q : List Char} (hq : q ≠ []) : isPfx q [] = false := by
  cases q with
  | nil => simp at hq
  | cons a as_ => simp [isPfx]

theorem firstMatch_spec : ∀ (hay q : List Char) (k : Nat),
    firstMatch hay q = some k →
      isPfx q (hay.drop k) = true ∧ k ≤ hay.length ∧
      ∀ j, j < k → isPfx q (hay.drop j) = false := by
  intro hay
  induction hay with
  | nil =>
    intro q k h
    rw [firstMatch] at h
    by_cases hp : isPfx q [] = true
    · rw [if_pos hp] at h
      cases h
      exact ⟨hp, by simp, fun j hj => by omega⟩
    · rw [if_neg hp] at h
      exact Option.noConfusion h
  | cons c t ih =>
    intro q k h
    rw [firstMatch] at h
    by_cases hp : isPfx q (c :: t) = true
    · rw [if_pos hp] at h
      cases h
      exact ⟨hp, by simp, fun j hj => by omega⟩
    · rw [if_neg hp] at h
      rw [Option.map_eq_some'] at h
      obtain ⟨k1, hk1, hk⟩ := h
      subst hk
      obtain ⟨h1, h2, h3⟩ := ih q k1 hk1
      refine ⟨by simpa using h1, by simp only [List.length_cons]; omega, ?_⟩
      intro j hj
      cases j with
      | zero =>
        simp only [List.drop_zero]
        simp only [Bool.not_eq_true] at hp
        exact hp
      | succ j =>
        simp only [List.drop_succ_cons]
        exact h3 j (by omega)

theorem lastMatch_none : ∀ (hay q : List Char), lastMatch hay q = none →
    ∀ j, j ≤ hay.length → isPfx q (hay.drop j) = false := by
  intro hay
  induction hay with
  | nil =>
    intro q h j hj
    have hj0 : j = 0 := by simpa using hj
    subst hj0
    rw [lastMatch] at h
    by_cases hp : isPfx q [] = true
    · rw [if_pos hp] at h; exact Option.noConfusion h
    · simp only [Bool.not_eq_true] at hp
      simpa using hp
  | cons c t ih =>
    intro q h j hj
    rw [lastMatch] at h
    cases hlm : (lastMatch t q) with
    | some k => rw [hlm] at h; simp at h
    | none =>
      rw [hlm] at h
      simp only [Option.map_none'] at h
      by_cases hp : isPfx q (c :: t) = true
      · rw [if_pos hp] at h; exact Option.noConfusion h
      · cases j with
        | zero =>
          simp only [Bool.not_eq_true] at hp
          simpa using hp
        | succ j =>
          simp only [List.drop_succ_cons]
          exact ih q hlm j (by simpa using hj)

theorem lastMatch_spec : ∀ (hay q : List Char) (k : Nat),
    lastMatch hay q = some k →
      isPfx q (hay.drop k) = true ∧ k ≤ hay.length ∧
      ∀ j, k < j → j ≤ hay.length → isPfx q (hay.drop j) = false := by
  intro hay
  induction hay with
  | nil =>
    intro q k h
    rw [lastMatch] at h
    by_cases hp : isPfx q [] = true
    · rw [if_pos hp] at h
      cases h
      exact ⟨hp, by simp, fun j hj1 hj2 => by simp at hj2; omega⟩
    · rw [if_neg hp] at h
      exact Option.noConfusion h
  | cons c t ih =>
    intro q k h
    rw [lastMatch] at h
    cases hlm : (lastMatch t q) with
    | some k1 =>
      rw [hlm] at h
      simp only [Option.map_some'] at h
      cases h
      obtain ⟨h1, h2, h3⟩ := ih q k1 hlm
      refine ⟨by simpa using h1, by simp only [List.length_cons]; omega, ?_⟩
      intro j hj1 hj2
      cases j with
      | zero => omega
      | succ j =>
        simp only [List.drop_succ_cons]
        exact h3 j (by omega) (by simpa using hj2)
    | none =>
      rw [hlm] at h
      simp only [Option.map_none'] at h
      by_cases hp : isPfx q (c :: t) = true
      · rw [if_pos hp] at h
        cases h
        refine ⟨hp, by simp, ?_⟩
        intro j hj1 hj2
        cases j with
        | zero => omega
        | succ j =>
          simp only [List.drop_succ_cons]
          exact lastMatch_none t q hlm j (by simpa using hj2)
      · rw [if_neg hp] at h
        exact Option.noConfusion h

/-! Supporting lemmas: re-segmenting a window of clusters. -/

theorem flatten_take_front (L : List (List Char)) (a : Nat) :
    L.flatten.take (((L.take a).flatten).length) = (L.take a).flatten := by
  have h : L.flatten = (L.take a).flatten ++ (L.drop a).flatten := by
    rw [← List.flatten_append, List.take_append_drop]
  rw [h, List.take_left]

theorem flatten_drop_suffix (L : List (List Char)) (a : Nat) :
    L.flatten.drop (((L.take a).flatten).length) = (L.drop a).flatten := by
  have h : L.flatten = (L.take a).flatten ++ (L.drop a).flatten := by
    rw [← List.flatten_append, List.take_append_drop]
  rw [h, List.drop_left]

theorem takeWhile_append_all {p : Char → Bool} :
    ∀ (t rest : List Char), (∀ x ∈ t, p x = true) →
    (rest = [] ∨ ∃ d ds, rest = d :: ds ∧ p d = false) →
    (t ++ rest).takeWhile p = t ∧ (t ++ rest).dropWhile p = rest := by
  intro t
  induction t with
  | nil =>
    intro rest _ hrest
    rcases hrest with hrest | ⟨d, ds, hdd, hd⟩
    · subst hrest; simp
    · subst hdd
      constructor
      · rw [List.nil_append, List.takeWhile_cons, if_neg (by simp [hd])]
      · rw [List.nil_append, List.dropWhile_cons, if_neg (by simp [hd])]
  | cons x xs ih =>
    intro rest hall hrest
    have hx : p x = true := hall x (by simp)
    have hih := ih rest (fun y hy => hall y (by simp [hy])) hrest
    constructor
    · rw [List.cons_append, List.takeWhile_cons, if_pos hx, hih.1]
    · rw [List.cons_append, List.dropWhile_cons, if_pos hx, hih.2]

theorem clusters_flatten_eq : ∀ (L : List (List Char)),
    (∀ g ∈ L, clusterShape g) → (∀ g ∈ L.drop 1, strictCluster g) →
    clusters L.flatten = L := by
  intro L
  induction L with
  | nil => intro _ _; simp [clusters]
  | cons g R ih =>
    intro h1 h2
    obtain ⟨hd, t, hg, ht⟩ := h1 g (by simp)
    have hRstrict : ∀ g2 ∈ R, strictCluster g2 := by
      intro g2 hg2
      exact h2 g2 (by simpa using hg2)
    have hrest : R.flatten = [] ∨
        ∃ d ds, R.flatten = d :: ds ∧ isExtendChar d = false := by
      cases R with
      | nil => exact Or.inl (by simp)
      | cons g2 R2 =>
        obtain ⟨h2h, t2, hg2, hne, ht2⟩ := hRstrict g2 (by simp)
        exact Or.inr ⟨h2h, t2 ++ R2.flatten, by simp [hg2], hne⟩
    subst hg
    have hflat : ((hd :: t) :: R).flatten = hd :: (t ++ R.flatten) := by simp
    rw [hflat, clusters_cons]
    have htw := takeWhile_append_all t R.flatten ht hrest
    rw [htw.1, htw.2]
    have hih : clusters R.flatten = R := by
      apply ih
      · intro g2 hg2
        obtain ⟨h2h, t2, hg2eq, _, ht2⟩ := hRstrict g2 hg2
        exact ⟨h2h, t2, hg2eq, ht2⟩
      · intro g2 hg2
        exact hRstrict g2 (List.mem_of_mem_drop hg2)
    rw [hih]

theorem clusters_window (s : List Char) (a n : Nat) :
    clusters ((((clusters s).drop a).take n).flatten) =
      ((clusters s).drop a).take n := by
  apply clusters_flatten_eq
  · intro g hg
    exact clusters_shape s g (List.mem_of_mem_drop (List.mem_of_mem_take hg))
  · intro g hg
    rw [List.drop_take] at hg
    have hg2 : g ∈ ((clusters s).drop a).drop 1 := List.mem_of_mem_take hg
    rw [List.drop_drop] at hg2
    have hsplit : ((clusters s).drop 1).drop a = (clusters s).drop (a + 1) := by
      rw [List.drop_drop, Nat.add_comm]
    rw [← hsplit] at hg2
    exact clusters_tail_strict s g (List.mem_of_mem_drop hg2)

/-! Supporting lemmas: specification of Row::find. -/

theorem rowFind_fwd_eq (s q : List Char) (len at_ : Nat)
    (hg : ¬(at_ > len ∨ q = [])) :
    rowFind s len q at_ SearchDirection.forward =
      (match (firstMatch ((((clusters s).drop at_).take (len - at_)).flatten) q).map
          (fun k => utf8Len (((((clusters s).drop at_).take (len - at_)).flatten).take k)) with
       | Option.none => Option.none
       | some b =>
         (posOf? b (clusterStarts (clusters ((((clusters s).drop at_).take (len - at_)).flatten)))).map
           (at_ + ·)) := by
  rw [rowFind, if_neg hg]
  simp

theorem rowFind_bwd_eq (s q : List Char) (len at_ : Nat)
    (hg : ¬(at_ > len ∨ q = [])) :
    rowFind s len q at_ SearchDirection.backward =
      (match (lastMatch (((clusters s).take at_).flatten) q).map
          (fun k => utf8Len ((((clusters s).take at_).flatten).take k)) with
       | Option.none => Option.none
       | some b =>
         (posOf? b (clusterStarts (clusters (((clusters s).take at_).flatten)))).map
           (0 + ·)) := by
  rw [rowFind, if_neg hg]
  simp

theorem rowFind_some_guard {s q : List Char} {len at_ m : Nat}
    {d : SearchDirection} (h : rowFind s len q at_ d = some m) :
    at_ ≤ len ∧ q ≠ [] := by
  by_cases hg : at_ > len ∨ q = []
  · rw [rowFind, if_pos hg] at h
    exact Option.noConfusion h
  · push_neg at hg
    exact ⟨by omega, hg.2⟩

theorem rowFind_fwd_spec {s q : List Char} {len at_ m : Nat}
    (h : rowFind s len q at_ SearchDirection.forward = some m) :
    at_ ≤ m ∧ m + graphemeCount q ≤ s.length ∧
    isPfx q (((((clusters s).drop at_).take (len - at_)).drop (m - at_)).flatten) = true ∧
    (∀ c, at_ ≤ c → c < m →
      isPfx q (((((clusters s).drop at_).take (len - at_)).drop (c - at_)).flatten) = false) := by
  obtain ⟨hlen, hq⟩ := rowFind_some_guard h
  have hg : ¬(at_ > len ∨ q = []) := by
    push_neg
    exact ⟨by omega, hq⟩
  rw [rowFind_fwd_eq s q len at_ hg] at h
  cases hfm : (firstMatch ((((clusters s).drop at_).take (len - at_)).flatten) q) with
  | none => rw [hfm] at h; simp at h
  | some ci =>
    rw [hfm] at h
    simp only [Option.map_some'] at h
    cases hpo : posOf?
        (utf8Len (((((clusters s).drop at_).take (len - at_)).flatten).take ci))
        (clusterStarts (clusters ((((clusters s).drop at_).take (len - at_)).flatten))) with
    | none => rw [hpo] at h; simp at h
    | some gi =>
      rw [hpo] at h
      simp only [Option.map_some', Option.some.injEq] at h
      subst h
      -- abbreviations
      have hWc : clusters ((((clusters s).drop at_).take (len - at_)).flatten)
          = ((clusters s).drop at_).take (len - at_) := clusters_window s at_ (len - at_)
      rw [hWc] at hpo
      have hne : ∀ g ∈ ((clusters s).drop at_).take (len - at_), g ≠ [] :=
        fun g hgm => clusters_mem_ne_nil g
          (List.mem_of_mem_drop (List.mem_of_mem_take hgm))
      have hgiW : gi < (((clusters s).drop at_).take (len - at_)).length := by
        have := posOf?_lt_length hpo
        rwa [clusterStarts_length] at this
      obtain ⟨hpfx, hcibound, hmin⟩ := firstMatch_spec _ q ci hfm
      -- the byte offset of cluster gi equals the matched byte index
      have hgval := posOf?_get _ _ _ hpo
      rw [clusterStarts_get _ gi hgiW] at hgval
      have hgeq : utf8Len (((((clusters s).drop at_).take (len - at_)).take gi).flatten)
          = utf8Len (((((clusters s).drop at_).take (len - at_)).flatten).take ci) := by
        exact Option.some.inj hgval
      -- identify ci with the character start of cluster gi
      have hA : ((((clusters s).drop at_).take (len - at_)).take gi).flatten
          = ((((clusters s).drop at_).take (len - at_)).flatten).take
              (((((clusters s).drop at_).take (len - at_)).take gi).flatten).length :=
        (flatten_take_front _ gi).symm
      have hAlen : (((((clusters s).drop at_).take (len - at_)).take gi).flatten).length
          ≤ ((((clusters s).drop at_).take (len - at_)).flatten).length :=
        flatten_take_length_le _ gi
      have hcieq : (((((clusters s).drop at_).take (len - at_)).take gi).flatten).length = ci := by
        apply utf8Len_take_inj hAlen hcibound
        rw [← hA]
        exact hgeq
      have hdropeq : (((((clusters s).drop at_).take (len - at_)).drop gi).flatten)
          = ((((clusters s).drop at_).take (len - at_)).flatten).drop ci := by
        rw [← hcieq]
        exact (flatten_drop_suffix _ gi).symm
      have hocc : isPfx q (((((clusters s).drop at_).take (len - at_)).drop gi).flatten) = true := by
        rw [hdropeq]
        exact hpfx
      -- the length bound
      have hgile : gi ≤ ci := by
        have h1 : ((((clusters s).drop at_).take (len - at_)).take gi).length = gi :=
          List.length_take_of_le (by omega)
        have h2 : ((((clusters s).drop at_).take (len - at_)).take gi).length
            ≤ (((((clusters s).drop at_).take (len - at_)).take gi).flatten).length :=
          flatten_length_ge (fun g hgm => hne g (List.mem_of_mem_take hgm))
        omega
      have hqlen : q.length ≤ ((((clusters s).drop at_).take (len - at_)).flatten).length - ci := by
        have := isPfx_length_le hpfx
        rw [List.length_drop] at this
        omega
      have hsub_le : ((((clusters s).drop at_).take (len - at_)).flatten).length + at_
          ≤ s.length := by
        by_cases hcount : at_ ≤ (clusters s).length
        · have h1 : ((((clusters s).drop at_).take (len - at_)).flatten).length
              ≤ (((clusters s).drop at_).flatten).length := flatten_take_length_le _ _
          have h2 : s.length = (((clusters s).take at_).flatten).length
              + (((clusters s).drop at_).flatten).length := by
            conv_lhs => rw [← clusters_flatten s]
            rw [← List.length_append, ← List.flatten_append, List.take_append_drop]
          have h3 : ((clusters s).take at_).length = at_ := List.length_take_of_le hcount
          have h4 : ((clusters s).take at_).length ≤ (((clusters s).take at_).flatten).length :=
            flatten_length_ge (fun g hgm => clusters_mem_ne_nil g (List.mem_of_mem_take hgm))
          omega
        · exfalso
          have hdropnil : (clusters s).drop at_ = [] :=
            List.drop_eq_nil_of_le (by omega)
          rw [hdropnil] at hfm
          simp only [List.take_nil, List.flatten_nil] at hfm
          rw [firstMatch, if_neg (by simp [isPfx_nil_false hq])] at hfm
          exact Option.noConfusion hfm
      have hgcq : graphemeCount q ≤ q.length := graphemeCount_le_length q
      have hmgi : at_ + gi - at_ = gi := by omega
      refine ⟨by omega, by omega, by rw [hmgi]; exact hocc, ?_⟩
      -- leftmost: no earlier in-window occurrence
      intro c hc1 hc2
      have hdlt : c - at_ < gi := by omega
      have hAp : ((((clusters s).drop at_).take (len - at_)).drop (c - at_)).flatten
          = ((((clusters s).drop at_).take (len - at_)).flatten).drop
              (((((clusters s).drop at_).take (len - at_)).take (c - at_)).flatten).length :=
        (flatten_drop_suffix _ (c - at_)).symm
      have hAplt : (((((clusters s).drop at_).take (len - at_)).take (c - at_)).flatten).length
          < ci := by
        rw [← hcieq]
        exact flatten_take_length_lt hne hdlt (by omega)
      rw [hAp]
      exact hmin _ hAplt

theorem rowFind_bwd_spec {s q : List Char} {len at_ m : Nat}
    (h : rowFind s len q at_ SearchDirection.backward = some m) :
    m < at_ ∧
    isPfx q ((((clusters s).take at_).drop m).flatten) = true ∧
    (∀ c, m < c → isPfx q ((((clusters s).take at_).drop c).flatten) = false) := by
  obtain ⟨hlen, hq⟩ := rowFind_some_guard h
  have hg : ¬(at_ > len ∨ q = []) := by
    push_neg
    exact ⟨by omega, hq⟩
  rw [rowFind_bwd_eq s q len at_ hg] at h
  cases hfm : (lastMatch (((clusters s).take at_).flatten) q) with
  | none => rw [hfm] at h; simp at h
  | some ci =>
    rw [hfm] at h
    simp only [Option.map_some'] at h
    cases hpo : posOf?
        (utf8Len ((((clusters s).take at_).flatten).take ci))
        (clusterStarts (clusters (((clusters s).take at_).flatten))) with
    | none => rw [hpo] at h; simp at h
    | some gi =>
      rw [hpo] at h
      simp only [Option.map_some', Option.some.injEq] at h
      subst h
      have hWc : clusters ((((clusters s).take at_)).flatten)
          = (clusters s).take at_ := by
        have := clusters_window s 0 at_
        simpa using this
      rw [hWc] at hpo
      have hne : ∀ g ∈ (clusters s).take at_, g ≠ [] :=
        fun g hgm => clusters_mem_ne_nil g (List.mem_of_mem_take hgm)
      have hgiW : gi < ((clusters s).take at_).length := by
        have := posOf?_lt_length hpo
        rwa [clusterStarts_length] at this
      obtain ⟨hpfx, hcibound, hmax⟩ := lastMatch_spec _ q ci hfm
      have hgval := posOf?_get _ _ _ hpo
      rw [clusterStarts_get _ gi hgiW] at hgval
      have hgeq : utf8Len ((((clusters s).take at_).take gi).flatten)
          = utf8Len ((((clusters s).take at_).flatten).take ci) :=
        Option.some.inj hgval
      have hA : (((clusters s).take at_).take gi).flatten
          = (((clusters s).take at_).flatten).take
              ((((clusters s).take at_).take gi).flatten).length :=
        (flatten_take_front _ gi).symm
      have hAlen : ((((clusters s).take at_).take gi).flatten).length
          ≤ (((clusters s).take at_).flatten).length :=
        flatten_take_length_le _ gi
      have hcieq : ((((clusters s).take at_).take gi).flatten).length = ci := by
        apply utf8Len_take_inj hAlen hcibound
        rw [← hA]
        exact hgeq
      have hdropeq : ((((clusters s).take at_).drop gi).flatten)
          = (((clusters s).take at_).flatten).drop ci := by
        rw [← hcieq]
        exact (flatten_drop_suffix _ gi).symm
      have hocc : isPfx q ((((clusters s).take at_).drop gi).flatten) = true := by
        rw [hdropeq]
        exact hpfx
      have hWlen : ((clusters s).take at_).length ≤ at_ := by
        rw [List.length_take]
        omega
      have hgia : 0 + gi = gi := by omega
      rw [hgia]
      refine ⟨by omega, hocc, ?_⟩
      intro c hc
      by_cases hcW : c < ((clusters s).take at_).length
      · have hAp : (((clusters s).take at_).drop c).flatten
            = (((clusters s).take at_).flatten).drop
                ((((clusters s).take at_).take c).flatten).length :=
          (flatten_drop_suffix _ c).symm
        have hApgt : ci < ((((clusters s).take at_).take c).flatten).length := by
          rw [← hcieq]
          exact flatten_take_length_lt hne hc (by omega)
        have hAple : ((((clusters s).take at_).take c).flatten).length
            ≤ (((clusters s).take at_).flatten).length :=
          flatten_take_length_le _ c
        rw [hAp]
        exact hmax _ hApgt hAple
      · have hdropnil : ((clusters s).take at_).drop c = [] :=
          List.drop_eq_nil_of_le (by omega)
        rw [hdropnil]
        simp only [List.flatten_nil]
        exact isPfx_nil_false hq

/-! Supporting lemmas: the match overlay loop. -/

theorem takeWhile_length_le (p : Char → Bool) (l : List Char) :
    (l.takeWhile p).length ≤ l.length := by
  induction l with
  | nil => simp
  | cons x xs ih =>
    rw [List.takeWhile_cons]
    by_cases hx : p x
    · rw [if_pos hx]
      simp only [List.length_cons]
      omega
    · rw [if_neg hx]
      simp only [List.length_nil, List.length_cons]
      omega

theorem findClose_lt {prev : Char} : ∀ {l : List Char} {j : Nat},
    findClose prev l = some j → j < l.length := by
  intro l
  induction l generalizing prev with
  | nil => intro j h; simp [findClose] at h
  | cons c rest ih =>
    intro j h
    rw [findClose] at h
    by_cases hpc : prev = '*' ∧ c = '/'
    · rw [if_pos hpc] at h
      cases h
      simp
    · rw [if_neg hpc] at h
      rw [Option.map_eq_some'] at h
      obtain ⟨j1, hj1, hj⟩ := h
      subst hj
      have := ih hj1
      simp only [List.length_cons]
      omega

theorem numberFire_bound {hl : HighlightOptions} {chars : List Char} {i count : Nat}
    (h : numberFire hl chars i = some count) :
    1 ≤ count ∧ count ≤ 1 + (chars.drop (i + 1)).length := by
  have htw := takeWhile_length_le (fun ch => ch.isDigit) (chars.drop (i + 1))
  simp only [numberFire] at h
  split at h
  · split at h
    · split at h
      · cases h
        omega
      · exact Option.noConfusion h
    · split at h
      · split at h
        · cases h
          omega
        · exact Option.noConfusion h
      · exact Option.noConfusion h
  · exact Option.noConfusion h

theorem kwFire_bound {kws : List (List Char)} {chars : List Char} {i count : Nat}
    (h : kwFire kws chars i = some count) :
    1 ≤ count ∧ count ≤ 1 + (chars.drop (i + 1)).length := by
  have htw := takeWhile_length_le (fun ch => !(isSeparator ch)) (chars.drop (i + 1))
  simp only [kwFire] at h
  split at h
  · split at h
    · cases h
      omega
    · exact Option.noConfusion h
  · exact Option.noConfusion h

theorem getD_set (l : List Highlight) : ∀ (i j : Nat) (v d : Highlight),
    (l.set i v).getD j d = if j = i ∧ i < l.length then v else l.getD j d := by
  induction l with
  | nil => intro i j v d; simp
  | cons x xs ih =>
    intro i j v d
    cases i with
    | zero =>
      cases j with
      | zero => simp [List.getD]
      | succ j => simp [List.getD]
    | succ i =>
      cases j with
      | zero => simp [List.getD]
      | succ j =>
        simp only [List.set_cons_succ, List.getD_cons_succ, List.length_cons]
        rw [ih i j v d]
        by_cases hji : j = i ∧ i < xs.length
      
        · rw [if_pos hji, if_pos (by omega)]
        · rw [if_neg hji, if_neg (by omega)]

theorem setRangeAux_length : ∀ (n a : Nat) (hls : List Highlight),
    (setRangeAux n a hls).length = hls.length := by
  intro n
  induction n with
  | zero => intro a hls; simp [setRangeAux]
  | succ n ih =>
    intro a hls
    rw [setRangeAux, ih]
    simp

theorem setRangeAux_getD : ∀ (n a : Nat) (hls : List Highlight) (j : Nat),
    (setRangeAux n a hls).getD j Highlight.none =
      if a ≤ j ∧ j < a + n ∧ j < hls.length then Highlight.matched
      else hls.getD j Highlight.none := by
  intro n
  induction n with
  | zero =>
    intro a hls j
    rw [setRangeAux, if_neg (by omega)]
  | succ n ih =>
    intro a hls j
    rw [setRangeAux, ih]
    simp only [List.length_set]
    by_cases h1 : a + 1 ≤ j ∧ j < a + 1 + n ∧ j < hls.length
    · rw [if_pos h1, if_pos (by omega)]
    · rw [if_neg h1, getD_set]
      by_cases h2 : j = a ∧ a < hls.length
      · rw [if_pos h2, if_pos (by omega)]
      · rw [if_neg h2, if_neg (by omega)]

theorem setRange_getD (hls : List Highlight) (a b j : Nat) :
    (setRange hls a b).getD j Highlight.none =
      if a ≤ j ∧ j < b ∧ j < hls.length then Highlight.matched
      else hls.getD j Highlight.none := by
  rw [setRange, setRangeAux_getD]
  by_cases hab : a ≤ b
  · by_cases h1 : a ≤ j ∧ j < a + (b - a) ∧ j < hls.length
    · rw [if_pos h1, if_pos (by omega)]
    · rw [if_neg h1, if_neg (by omega)]
  · rw [if_neg (by omega), if_neg (by omega)]

theorem setRange_length (hls : List Highlight) (a b : Nat) :
    (setRange hls a b).length = hls.length := by
  rw [setRange, setRangeAux_length]

theorem hlMatchLoop_classAt (s q : List Char) (len : Nat) :
    ∀ (fuel i : Nat) (hls : List Highlight), hls.length = s.length →
    ∀ j, classAt (hlMatchLoop s len q fuel i hls) j =
      (if inSpans (matchSpans s len q fuel i) j = true then Highlight.matched
       else classAt hls j) := by
  intro fuel
  induction fuel with
  | zero =>
    intro i hls hlen j
    rw [hlMatchLoop, matchSpans]
    simp [inSpans]
  | succ fuel ih =>
    intro i hls hlen j
    rw [hlMatchLoop, matchSpans]
    cases hrf : rowFind s len q i SearchDirection.forward with
    | none => simp [inSpans]
    | some m =>
      obtain ⟨_, hbound, _, _⟩ := rowFind_fwd_spec hrf
      rw [ih (m + graphemeCount q) (setRange hls m (m + graphemeCount q))
        (by rw [setRange_length]; exact hlen) j]
      simp only [inSpans, List.any_cons, Bool.or_eq_true, Bool.and_eq_true,
        decide_eq_true_eq]
      by_cases hrest : (matchSpans s len q fuel (m + graphemeCount q)).any
          (fun p => decide (p.1 ≤ j) && decide (j < p.2)) = true
      · rw [if_pos hrest, if_pos (Or.inr hrest)]
      · rw [if_neg hrest]
        unfold classAt
        rw [setRange_getD]
        by_cases hin : m ≤ j ∧ j < m + graphemeCount q
        · rw [if_pos ⟨hin.1, hin.2, by omega⟩, if_pos (Or.inl hin)]
        · rw [if_neg (by omega)]
          rw [if_neg (by
            intro hor
            rcases hor with hor | hor
            · exact hin hor
            · exact hrest hor)]

theorem scanAux_length : ∀ (fuel : Nat) (hl : HighlightOptions) (chars : List Char)
    (i : Nat) (inML : Bool),
    ¬(hl.multiline_comments = true ∧ inML = true) →
    chars.length ≤ fuel + i →
    (scanAux hl chars fuel i inML).2 = false →
    (scanAux hl chars fuel i inML).1.length = chars.length - i := by
  intro fuel
  induction fuel with
  | zero =>
    intro hl chars i inML hml hfuel hflag
    rw [scanAux]
    simp only [List.length_nil]
    omega
  | succ fuel ih =>
    intro hl chars i inML hml hfuel
    simp only [scanAux]
    split
    · -- chars[i]? = none
      rename_i hci
      intro _
      have hlen : chars.length ≤ i := by
        by_contra hcon
        rw [List.getElem?_eq_getElem (by omega)] at hci
        exact Option.noConfusion hci
      simp only [List.length_nil]
      omega
    · -- chars[i]? = some c
      rename_i c hci
      have hilt : i < chars.length := by
        by_contra hcon
        rw [List.getElem?_eq_none (by omega)] at hci
        exact Option.noConfusion hci
      rw [if_neg hml]
      split
      · -- multiline comment opener branch
        rename_i hbeg
        have hi1 : i + 1 < chars.length := by
          by_contra hcon
          rw [List.getElem?_eq_none (by omega)] at hbeg
          exact Option.noConfusion hbeg.2.2
        cases hfc : findClose '*' (chars.drop (i + 2)) with
        | some j =>
          have hjlt : j < (chars.drop (i + 2)).length := findClose_lt hfc
          rw [List.length_drop] at hjlt
          split
          · intro hflag
            exact Bool.noConfusion hflag
          · rename_i hearly
            have hearly2 : ¬(chars.length - 1 ≤ j + 3) := hearly
            intro hflag
            have hflag2 : (scanAux hl chars fuel (i + (j + 3)) inML).2 = false := hflag
            show (List.replicate (j + 3) Highlight.mlComment
              ++ (scanAux hl chars fuel (i + (j + 3)) inML).1).length = chars.length - i
            rw [List.length_append, List.length_replicate,
              ih hl chars (i + (j + 3)) inML hml (by omega) hflag2]
            omega
        | none =>
          split
          · intro hflag
            exact Bool.noConfusion hflag
          · rename_i hearly
            have hearly2 : ¬(chars.length - 1 ≤ chars.length - i) := hearly
            intro hflag
            have hflag2 : (scanAux hl chars fuel (i + (chars.length - i)) inML).2 = false := hflag
            show (List.replicate (chars.length - i) Highlight.mlComment
              ++ (scanAux hl chars fuel (i + (chars.length - i)) inML).1).length = chars.length - i
            rw [List.length_append, List.length_replicate,
              ih hl chars (i + (chars.length - i)) inML hml (by omega) hflag2]
            omega
      · rename_i hbeg
        split
        · -- line comment branch
          intro _
          simp only [List.length_replicate]
        · rename_i hcom
          split
          · -- closed string literal branch
            rename_i hstr
            intro hflag
            have hdl : (chars.drop (i + 1)).length = chars.length - (i + 1) :=
              List.length_drop (i + 1) chars
            have htw := hstr.2.2
            simp only [List.length_append, List.length_replicate]
            rw [ih hl chars
              (i + (1 + ((chars.drop (i + 1)).takeWhile (fun ch => ch ≠ '"')).length) + 1)
              inML hml (by omega) hflag]
            omega
          · rename_i hstr
            split
            · -- closed character literal branch
              rename_i hchr
              intro hflag
              have hdl : (chars.drop (i + 1)).length = chars.length - (i + 1) :=
                List.length_drop (i + 1) chars
              have htw := hchr.2.2
              simp only [List.length_append, List.length_replicate]
              rw [ih hl chars
                (i + (1 + ((chars.drop (i + 1)).takeWhile (fun ch => ch ≠ '\'')).length) + 1)
                inML hml (by omega) hflag]
              omega
            · rename_i hchr
              split
              · -- separator branch
                rename_i hsep
                have hdl : (chars.drop (i + 1)).length = chars.length - (i + 1) :=
                  List.length_drop (i + 1) chars
                split
                · -- number fires
                  rename_i count hnf
                  obtain ⟨hc1, hc2⟩ := numberFire_bound hnf
                  intro hflag
                  simp only [List.length_cons, List.length_append, List.length_replicate]
                  rw [ih hl chars (i + count) inML hml (by omega) hflag]
                  omega
                · rename_i hnf
                  split
                  · -- primary keyword fires
                    rename_i count hk1
                    obtain ⟨hc1, hc2⟩ := kwFire_bound hk1
                    intro hflag
                    simp only [List.length_cons, List.length_append, List.length_replicate]
                    rw [ih hl chars (i + count) inML hml (by omega) hflag]
                    omega
                  · rename_i hk1
                    split
                    · -- secondary keyword fires
                      rename_i count hk2
                      obtain ⟨hc1, hc2⟩ := kwFire_bound hk2
                      intro hflag
                      simp only [List.length_cons, List.length_append, List.length_replicate]
                      rw [ih hl chars (i + count) inML hml (by omega) hflag]
                      omega
                    · rename_i hk2
                      intro hflag
                      simp only [List.length_cons]
                      rw [ih hl chars (i + 1) inML hml (by omega) hflag]
                      omega
              · -- default branch
                rename_i hsep
                intro hflag
                simp only [List.length_cons]
                rw [ih hl chars (i + 1) inML hml (by omega) hflag]
                omega

theorem scanAux_length_top : ∀ (fuel : Nat) (hl : HighlightOptions)
    (chars : List Char) (inML : Bool),
    chars.length < fuel →
    (scanAux hl chars fuel 0 inML).2 = false →
    (scanAux hl chars fuel 0 inML).1.length = chars.length := by
  intro fuel hl chars inML hfuel
  by_cases hml : hl.multiline_comments = true ∧ inML = true
  · cases fuel with
    | zero => intro _; omega
    | succ f =>
      simp only [scanAux]
      split
      · rename_i hc0
        intro _
        have hlen : chars.length ≤ 0 := by
          by_contra hcon
          rw [List.getElem?_eq_getElem (by omega)] at hc0
          exact Option.noConfusion hc0
        simp only [List.length_nil]
        omega
      · rename_i c hc0
        have hpos : 0 < chars.length := by
          by_contra hcon
          rw [List.getElem?_eq_none (by omega)] at hc0
          exact Option.noConfusion hc0
        rw [if_pos hml]
        cases hfc : findClose (chars.headD ' ') chars.tail with
        | some j =>
          intro hflag
          have hflag2 : (scanAux hl chars f (0 + (j + 1)) false).2 = false := hflag
          show (List.replicate (j + 1) Highlight.mlComment
            ++ (scanAux hl chars f (0 + (j + 1)) false).1).length = chars.length
          have hjlt : j < chars.tail.length := findClose_lt hfc
          rw [List.length_tail] at hjlt
          rw [List.length_append, List.length_replicate,
            scanAux_length f hl chars (0 + (j + 1)) false (by simp) (by omega) hflag2]
          omega
        | none =>
          intro hflag
          exact Bool.noConfusion hflag
  · intro hflag
    have h := scanAux_length fuel hl chars 0 inML hml (by omega) hflag
    simpa using h

/-! Supporting lemmas: the keyword-only scan. -/

theorem kwHitB_iff (chars : List Char) (lo j : Nat) :
    kwHitB chars lo j = true ↔
      ∃ sIdx, lo ≤ sIdx ∧ sIdx < j ∧ sepAtB chars sIdx = true ∧
        j < sIdx + 1 + (kwRun chars sIdx).length ∧
        kwRun chars sIdx ∈ kwOnlyOptions.keywords1 := by
  simp only [kwHitB, List.any_eq_true, List.mem_range, Bool.and_eq_true,
    decide_eq_true_eq]
  constructor
  · rintro ⟨sIdx, h1, ⟨⟨⟨h2, h3⟩, h4⟩, h5⟩⟩
    exact ⟨sIdx, h2, h1, h3, h4, h5⟩
  · rintro ⟨sIdx, h2, h1, h3, h4, h5⟩
    exact ⟨sIdx, h1, ⟨⟨⟨h2, h3⟩, h4⟩, h5⟩⟩

theorem kwHitB_self (chars : List Char) (lo : Nat) :
    kwHitB chars lo lo = false := by
  by_contra hcon
  rw [Bool.not_eq_false, kwHitB_iff] at hcon
  obtain ⟨sIdx, h1, h2, _⟩ := hcon
  omega

theorem kwRun_char {chars : List Char} {sIdx k : Nat}
    (hk : k < (kwRun chars sIdx).length) :
    sepAtB chars (sIdx + 1 + k) = false := by
  obtain ⟨a, ha, hpa⟩ := takeWhile_spec_at (l := chars.drop (sIdx + 1)) hk
  rw [List.getElem?_drop] at ha
  rw [sepAtB, ha]
  simpa using hpa

theorem kwHitB_shift_one (chars : List Char) (i j : Nat)
    (hno : sepAtB chars i = false ∨ kwRun chars i ∉ kwOnlyOptions.keywords1) :
    kwHitB chars i j = kwHitB chars (i + 1) j := by
  cases hj : kwHitB chars (i + 1) j with
  | true =>
    rw [kwHitB_iff] at hj
    obtain ⟨sIdx, h1, h2, h3, h4, h5⟩ := hj
    rw [(kwHitB_iff chars i j).mpr ⟨sIdx, by omega, h2, h3, h4, h5⟩]
  | false =>
    cases hij : kwHitB chars i j with
    | false => rfl
    | true =>
      exfalso
      rw [kwHitB_iff] at hij
      obtain ⟨sIdx, h1, h2, h3, h4, h5⟩ := hij
      by_cases hsi : sIdx = i
      · subst hsi
        rcases hno with hno | hno
        · rw [h3] at hno
          exact Bool.noConfusion hno
        · exact hno h5
      · have h6 : kwHitB chars (i + 1) j = true :=
          (kwHitB_iff chars (i + 1) j).mpr ⟨sIdx, by omega, h2, h3, h4, h5⟩
        rw [h6] at hj
        exact Bool.noConfusion hj

theorem kwHitB_shift_three (chars : List Char) (i j : Nat)
    (hsep : sepAtB chars i = true)
    (hrun : kwRun chars i = ['f', 'n'])
    (hj3 : i + 3 ≤ j) :
    kwHitB chars i j = kwHitB chars (i + 3) j := by
  cases hj : kwHitB chars (i + 3) j with
  | true =>
    rw [kwHitB_iff] at hj
    obtain ⟨sIdx, h1, h2, h3, h4, h5⟩ := hj
    rw [(kwHitB_iff chars i j).mpr ⟨sIdx, by omega, h2, h3, h4, h5⟩]
  | false =>
    cases hij : kwHitB chars i j with
    | false => rfl
    | true =>
      exfalso
      rw [kwHitB_iff] at hij
      obtain ⟨sIdx, h1, h2, h3, h4, h5⟩ := hij
      by_cases hsi : i + 3 ≤ sIdx
      · have h6 : kwHitB chars (i + 3) j = true :=
          (kwHitB_iff chars (i + 3) j).mpr ⟨sIdx, hsi, h2, h3, h4, h5⟩
        rw [h6] at hj
        exact Bool.noConfusion hj
      · by_cases hsi0 : sIdx = i
        · subst hsi0
          rw [hrun] at h4
          simp only [List.length_cons, List.length_nil] at h4
          omega
        · have hk : sIdx - (i + 1) < (kwRun chars i).length := by
            rw [hrun]
            simp only [List.length_cons, List.length_nil]
            omega
          have := kwRun_char hk
          rw [show i + 1 + (sIdx - (i + 1)) = sIdx from by omega] at this
          rw [h3] at this
          exact Bool.noConfusion this

theorem kwFire_kwOnly_some {chars : List Char} {i count : Nat}
    (h : kwFire kwOnlyOptions.keywords1 chars i = some count) :
    kwRun chars i = ['f', 'n'] ∧ count = 3 := by
  have hkw : kwOnlyOptions.keywords1 = ["fn".toList] := rfl
  rw [hkw] at h
  simp only [kwFire] at h
  split at h
  · split at h
    · rename_i hmem
      cases h
      have hrun : kwRun chars i = ['f', 'n'] := by
        rw [kwRun]
        have h2 := List.mem_singleton.mp hmem
        rw [h2]
        rfl
      refine ⟨hrun, ?_⟩
      have h3 : (chars.drop (i + 1)).takeWhile (fun ch => !(isSeparator ch))
          = kwRun chars i := rfl
      rw [h3, hrun]
      rfl
    · exact Option.noConfusion h
  · exact Option.noConfusion h

theorem kwFire_kwOnly_none {chars : List Char} {i : Nat}
    (h : kwFire kwOnlyOptions.keywords1 chars i = Option.none) :
    kwRun chars i ∉ kwOnlyOptions.keywords1 := by
  have hkw : kwOnlyOptions.keywords1 = ["fn".toList] := rfl
  rw [hkw] at h ⊢
  simp only [kwFire] at h
  split at h
  · split at h
    · exact Option.noConfusion h
    · rename_i hmem
      intro hcon
      apply hmem
      have h2 : kwRun chars i = (chars.drop (i + 1)).takeWhile (fun ch => !(isSeparator ch)) := rfl
      rw [← h2]
      exact hcon
  · rename_i hne
    exact absurd (by simp) hne

theorem numberFire_off (chars : List Char) (i : Nat) :
    numberFire kwOnlyOptions chars i = Option.none := by
  rw [numberFire, if_neg]
  intro hcon
  have h : kwOnlyOptions.numbers = false := rfl
  rw [h] at hcon
  exact Bool.noConfusion hcon

theorem kwFire_kw2_off (chars : List Char) (i : Nat) :
    kwFire kwOnlyOptions.keywords2 chars i = Option.none := by
  have h : kwOnlyOptions.keywords2 = [] := rfl
  rw [h, kwFire, if_neg]
  simp

theorem range'_three (i : Nat) : List.range' i 3 = [i, i + 1, i + 2] := rfl

theorem scanKw_master : ∀ (fuel : Nat) (chars : List Char) (i : Nat),
    chars.length ≤ fuel + i →
    scanAux kwOnlyOptions chars fuel i false =
      ((List.range' i (chars.length - i)).map
        (fun j => if kwHitB chars i j = true then Highlight.keyword1 else Highlight.none),
       false) := by
  intro fuel
  induction fuel with
  | zero =>
    intro chars i hfuel
    rw [scanAux]
    have h0 : chars.length - i = 0 := by omega
    rw [h0]
    rfl
  | succ fuel ih =>
    intro chars i hfuel
    simp only [scanAux]
    split
    · rename_i hci
      have hlen : chars.length ≤ i := by
        by_contra hcon
        rw [List.getElem?_eq_getElem (by omega)] at hci
        exact Option.noConfusion hci
      have h0 : chars.length - i = 0 := by omega
      rw [h0]
      rfl
    · rename_i c hci
      have hilt : i < chars.length := by
        by_contra hcon
        rw [List.getElem?_eq_none (by omega)] at hci
        exact Option.noConfusion hci
      rw [if_neg (by simp [kwOnlyOptions]), if_neg (by simp [kwOnlyOptions]),
        if_neg (by simp [kwOnlyOptions]), if_neg (by simp [kwOnlyOptions]),
        if_neg (by simp [kwOnlyOptions])]
      have hsepAt : sepAtB chars i = isSeparator c := by
        rw [sepAtB, hci]
      by_cases hsep : isSeparator c = true
      · rw [if_pos hsep, numberFire_off]
        cases hk1 : kwFire kwOnlyOptions.keywords1 chars i with
        | some count =>
          obtain ⟨hrun, hcount⟩ := kwFire_kwOnly_some hk1
          subst hcount
          have hbound := kwFire_bound hk1
          rw [List.length_drop] at hbound
          have hi3 : i + 3 ≤ chars.length := by omega
          show (Highlight.none :: List.replicate 2 Highlight.keyword1
              ++ (scanAux kwOnlyOptions chars fuel (i + 3) false).1,
            (scanAux kwOnlyOptions chars fuel (i + 3) false).2)
            = ((List.range' i (chars.length - i)).map
                (fun j => if kwHitB chars i j = true then Highlight.keyword1 else Highlight.none),
               false)
          rw [ih chars (i + 3) (by omega)]
          have hsplit : chars.length - i = 3 + (chars.length - (i + 3)) := by omega
          rw [hsplit, range'_split 3 i (chars.length - (i + 3)), List.map_append]
          rw [range'_three]
          have hmem : kwRun chars i ∈ kwOnlyOptions.keywords1 := by
            rw [hrun]
            have : (['f', 'n'] : List Char) = "fn".toList := rfl
            rw [this]
            exact List.mem_singleton.mpr rfl
          have hhit1 : kwHitB chars i (i + 1) = true := by
            rw [kwHitB_iff]
            refine ⟨i, le_rfl, by omega, by rw [hsepAt]; exact hsep, ?_, hmem⟩
            rw [hrun]
            simp
          have hhit2 : kwHitB chars i (i + 2) = true := by
            rw [kwHitB_iff]
            refine ⟨i, le_rfl, by omega, by rw [hsepAt]; exact hsep, ?_, hmem⟩
            rw [hrun]
            simp
          have htail : (List.range' (i + 3) (chars.length - (i + 3))).map
              (fun j => if kwHitB chars i j = true then Highlight.keyword1 else Highlight.none)
              = (List.range' (i + 3) (chars.length - (i + 3))).map
              (fun j => if kwHitB chars (i + 3) j = true then Highlight.keyword1 else Highlight.none) := by
            apply List.map_congr_left
            intro j hj
            rw [List.mem_range'_1] at hj
            rw [kwHitB_shift_three chars i j (by rw [hsepAt]; exact hsep) hrun (by omega)]
          simp only [List.map_cons, List.map_nil, kwHitB_self, hhit1, hhit2]
          rw [htail]
          simp [List.replicate]
        | none =>
          have hnot := kwFire_kwOnly_none hk1
          show (Highlight.none :: (scanAux kwOnlyOptions chars fuel (i + 1) false).1,
            (scanAux kwOnlyOptions chars fuel (i + 1) false).2)
            = ((List.range' i (chars.length - i)).map
                (fun j => if kwHitB chars i j = true then Highlight.keyword1 else Highlight.none),
               false)
          rw [ih chars (i + 1) (by omega)]
          have hsplit : chars.length - i = (chars.length - (i + 1)) + 1 := by omega
          rw [hsplit]
          have hcons : List.range' i ((chars.length - (i + 1)) + 1)
              = i :: List.range' (i + 1) (chars.length - (i + 1)) := rfl
          rw [hcons]
          have htail : (List.range' (i + 1) (chars.length - (i + 1))).map
              (fun j => if kwHitB chars i j = true then Highlight.keyword1 else Highlight.none)
              = (List.range' (i + 1) (chars.length - (i + 1))).map
              (fun j => if kwHitB chars (i + 1) j = true then Highlight.keyword1 else Highlight.none) := by
            apply List.map_congr_left
            intro j hj
            rw [kwHitB_shift_one chars i j (Or.inr hnot)]
          simp only [List.map_cons, kwHitB_self]
          rw [htail]
          simp
      · rw [if_neg hsep]
        show (Highlight.none :: (scanAux kwOnlyOptions chars fuel (i + 1) false).1,
          (scanAux kwOnlyOptions chars fuel (i + 1) false).2)
          = ((List.range' i (chars.length - i)).map
              (fun j => if kwHitB chars i j = true then Highlight.keyword1 else Highlight.none),
             false)
        rw [ih chars (i + 1) (by omega)]
        have hsplit : chars.length - i = (chars.length - (i + 1)) + 1 := by omega
        rw [hsplit]
        have hcons : List.range' i ((chars.length - (i + 1)) + 1)
            = i :: List.range' (i + 1) (chars.length - (i + 1)) := rfl
        rw [hcons]
        have htail : (List.range' (i + 1) (chars.length - (i + 1))).map
            (fun j => if kwHitB chars i j = true then Highlight.keyword1 else Highlight.none)
            = (List.range' (i + 1) (chars.length - (i + 1))).map
            (fun j => if kwHitB chars (i + 1) j = true then Highlight.keyword1 else Highlight.none) := by
          apply List.map_congr_left
          intro j hj
          rw [kwHitB_shift_one chars i j (Or.inl (by rw [hsepAt]; simpa using hsep))]
        simp only [List.map_cons, kwHitB_self]
        rw [htail]
        simp

theorem range'_getElem? : ∀ (n s j : Nat),
    (List.range' s n)[j]? = if j < n then some (s + j) else Option.none := by
  intro n
  induction n with
  | zero => intro s j; simp
  | succ n ih =>
    intro s j
    cases j with
    | zero => simp [List.range'_succ]
    | succ j =>
      rw [List.range'_succ]
      simp only [List.getElem?_cons_succ]
      rw [ih (s + 1) j]
      by_cases hj : j < n
      · rw [if_pos hj, if_pos (by omega)]
        have : s + 1 + j = s + (j + 1) := by omega
        rw [this]
      · rw [if_neg hj, if_neg (by omega)]

theorem scanKw_classAt (chars : List Char) (j : Nat) (hj : j < chars.length) :
    classAt (scanAux kwOnlyOptions chars (chars.length + 1) 0 false).1 j =
      (if kwHitB chars 0 j = true then Highlight.keyword1 else Highlight.none) := by
  rw [scanKw_master (chars.length + 1) chars 0 (by omega)]
  show ((List.range' 0 (chars.length - 0)).map
      (fun j => if kwHitB chars 0 j = true then Highlight.keyword1 else Highlight.none)).getD
        j Highlight.none = _
  rw [List.getD, List.get?_eq_getElem?, List.getElem?_map, range'_getElem?]
  rw [if_pos (by omega)]
  simp

theorem kwRun_of_maximalRun {chars : List Char} {s e : Nat}
    (h : maximalRun chars s e) (hs : 1 ≤ s) :
    kwRun chars (s - 1) = (chars.drop s).take (e - s) := by
  obtain ⟨hse, helen, hinner, hleft, hright⟩ := h
  have hs1 : s - 1 + 1 = s := by omega
  rw [kwRun, hs1]
  have hlen : ((chars.drop s).takeWhile (fun ch => !(isSeparator ch))).length = e - s := by
    have hge : e - s ≤ ((chars.drop s).takeWhile (fun ch => !(isSeparator ch))).length := by
      apply takeWhile_ge_of_all
      intro k hk
      obtain ⟨hsep, hlt⟩ := hinner (s + k) (by omega) (by omega)
      have hx : chars[s + k]? = some (chars[s + k]) := List.getElem?_eq_getElem hlt
      rw [sepAtB, hx] at hsep
      refine ⟨chars[s + k], ?_, by simpa using hsep⟩
      rw [List.getElem?_drop]
      exact hx
    have hle : ((chars.drop s).takeWhile (fun ch => !(isSeparator ch))).length ≤ e - s := by
      by_contra hcon
      obtain ⟨a, ha, hpa⟩ := takeWhile_spec_at
        (p := fun ch => !(isSeparator ch)) (l := chars.drop s) (k := e - s) (by omega)
      rw [List.getElem?_drop] at ha
      have hse2 : s + (e - s) = e := by omega
      rw [hse2] at ha
      rcases hright with hright | hright
      · rw [List.getElem?_eq_none (by omega)] at ha
        exact Option.noConfusion ha
      · rw [sepAtB, ha] at hright
        have hright2 : isSeparator a = true := hright
        have hpa2 : isSeparator a = false := by simpa using hpa
        rw [hpa2] at hright2
        exact Bool.noConfusion hright2
    omega
  rw [takeWhile_eq_take, hlen]

theorem maximalRunB_props {chars : List Char} {s e : Nat}
    (h : maximalRunB chars s e = true) : maximalRun chars s e := by
  simp only [maximalRunB, Bool.and_eq_true, Bool.or_eq_true, List.all_eq_true,
    decide_eq_true_eq, Bool.not_eq_true'] at h
  obtain ⟨⟨⟨⟨h1, h2⟩, h3⟩, h4⟩, h5⟩ := h
  refine ⟨h1, h2, ?_, ?_, ?_⟩
  · intro j hj1 hj2
    have hj := h3 j (by rw [List.mem_range'_1]; omega)
    exact ⟨hj.1, hj.2⟩
  · rcases h4 with h4 | h4
    · exact Or.inl h4
    · exact Or.inr h4
  · rcases h5 with h5 | h5
    · exact Or.inl h5
    · exact Or.inr h5

/-! Claims. -/

/-- Claim C1: refuted as stated; the code is at fault (code_bug).  The
claim says File::delete is a safe no-op for every out-of-range row index
position.y at or above the row count, including the empty buffer.  The
guard in File::delete only returns early for position.y strictly greater
than the row count; at position.y equal to the row count - in particular
on the empty buffer at position (0, 0) - the following direct index
self.rows[at.y] is out of bounds and the process panics (modelled as
none).  Strictly above the row count the call is indeed a no-op. -/
theorem claim_C1 :
    File.delete File.default ⟨0, 0⟩ = Option.none ∧
    File.delete File.default ⟨0, 1⟩ = some File.default ∧
    File.delete
      { rows := [Row.ofString ['a']], filename := Option.none,
        dirty := false, hl_opts := HighlightOptions.default } ⟨0, 1⟩
      = Option.none := by
  refine ⟨rfl, rfl, rfl⟩

/-- Claim C2: refuted as stated; the code is at fault (code_bug).  The
claim says the cached length always equals the grapheme-cluster count of
the content.  Row::prepend_str adds the Rust byte length of the
prepended slice to the cached length; prepending the two-byte,
one-cluster string containing only U+00E9 to an empty row leaves a row
whose cached length is 2 while its content has exactly 1 grapheme
cluster. -/
theorem claim_C2 :
    ((Row.ofString []).prepend_str [eAcute]).len = 2 ∧
    graphemeCount ((Row.ofString []).prepend_str [eAcute]).string = 1 := by
  exact ⟨rfl, rfl⟩

/-- Claim C3: refuted as stated; the code is at fault (code_bug).  The
claim says highlight returns true exactly when the row ends inside an
unterminated multiline comment, and that a close whose final slash is
the last character does not count as unterminated.  The test
count >= chars.len() - 1 in highlight_ml_comment_beginning misfires both
ways: for the fully terminated row slash-star-star-slash the call
returns true, and for the row ab slash-star cd, which ends inside an
unterminated comment opened at index 2, the call returns false. -/
theorem claim_C3 :
    ((Row.ofString "/**/".toList).runHighlight rustOptions Option.none false).2 = true ∧
    ((Row.ofString "ab/*cd".toList).runHighlight rustOptions Option.none false).2 = false := by
  exact ⟨by decide, by decide⟩

/-- Claim C4: refuted as stated; the code is at fault (code_bug).  With
the carried flag true, the claim says the close is included in the
MultilineComment span and that, with no close, the entire row including
its last character is MultilineComment.  highlight_ml_comment_end pushes
one entry per loop step starting at n = 1, so it pushes one entry too
few on both paths: on row a*/b the slash of the close (position 2) falls
back to the normal rules and is classified None, and on row ab with no
close only position 0 receives an entry, the final character counting as
None for the renderer. -/
theorem claim_C4 :
    (((Row.ofString "a*/b".toList).runHighlight rustOptions Option.none true).1.highlight
      = [Highlight.mlComment, Highlight.mlComment, Highlight.none, Highlight.none]) ∧
    classAt
      ((Row.ofString "a*/b".toList).runHighlight rustOptions Option.none true).1.highlight 2
      = Highlight.none ∧
    (((Row.ofString "ab".toList).runHighlight rustOptions Option.none true).1.highlight
      = [Highlight.mlComment]) ∧
    classAt
      ((Row.ofString "ab".toList).runHighlight rustOptions Option.none true).1.highlight 1
      = Highlight.none ∧
    ((Row.ofString "ab".toList).runHighlight rustOptions Option.none true).2 = true := by
  refine ⟨by decide, by decide, by decide, by decide, by decide⟩

/-- Claim C9: refuted as stated; the code is at fault (code_bug).  The
claim says a successful save returns the number of bytes written, the
sum of every row's UTF-8 byte length plus one newline byte per row.
File::save sums the rows' cached grapheme lengths instead, never
counting the newline bytes: saving a one-row buffer holding the single
character a writes the two bytes a and newline but returns 1. -/
theorem claim_C9 :
    (File.save
      { rows := [Row.ofString ['a']], filename := some "a.txt".toList,
        dirty := true, hl_opts := HighlightOptions.default }).result = 1 ∧
    utf8Len (File.save
      { rows := [Row.ofString ['a']], filename := some "a.txt".toList,
        dirty := true, hl_opts := HighlightOptions.default }).written = 2 := by
  exact ⟨rfl, rfl⟩

/-- Claim C8: confirmed.  For a Row whose cached length is accurate
(the invariant every row constructor establishes), splitting at any
index and appending the returned half back reconstructs exactly the
original content and the original cached length. -/
theorem claim_C8 (r : Row) (at_ : Nat) (hwf : r.len = graphemeCount r.string) :
    ((r.split at_).1.append (r.split at_).2).string = r.string ∧
    ((r.split at_).1.append (r.split at_).2).len = r.len := by
  constructor
  · show ((clusters r.string).take at_).flatten ++ ((clusters r.string).drop at_).flatten
      = r.string
    rw [← List.flatten_append, List.take_append_drop, clusters_flatten]
  · show ((clusters r.string).take at_).length + ((clusters r.string).drop at_).length
      = r.len
    rw [List.length_take, List.length_drop, hwf, graphemeCount]
    omega

/-- Claim C8 witness: the theorem applied to the concrete row ab with
split index 1. -/
theorem claim_C8_witness :
    ((Row.ofString "ab".toList).len = graphemeCount (Row.ofString "ab".toList).string) ∧
    ((((Row.ofString "ab".toList).split 1).1.append
        ((Row.ofString "ab".toList).split 1).2).string = (Row.ofString "ab".toList).string ∧
     (((Row.ofString "ab".toList).split 1).1.append
        ((Row.ofString "ab".toList).split 1).2).len = (Row.ofString "ab".toList).len) :=
  ⟨by decide, claim_C8 (Row.ofString "ab".toList) 1 (by decide)⟩

/-- Claim C10: confirmed.  Inserting a newline at the end-of-buffer
append point (position.y equal to the row count) pushes an empty row and
then splits it, increasing the row count by exactly two, while inserting
a newline at any existing row index increases the row count by exactly
one. -/
theorem claim_C10 (f : File) (p : Position) :
    (p.y = f.rows.length → (f.insert p '\n').rows.length = f.rows.length + 2) ∧
    (p.y < f.rows.length → (f.insert p '\n').rows.length = f.rows.length + 1) := by
  constructor
  · intro hy
    have h1 : ¬(p.y > f.rows.length) := by omega
    simp only [File.insert, if_neg h1, if_pos rfl, if_true, File.insert_newline,
      File.unhighlight_rows, if_pos hy]
    rw [List.length_mapIdx]
    rw [listInsertAt_length _ _ _ (by
      rw [List.length_set, List.length_append]
      simp only [List.length_cons, List.length_nil]
      omega)]
    rw [List.length_set, List.length_append]
    simp only [List.length_cons, List.length_nil]
  · intro hy
    have h1 : ¬(p.y > f.rows.length) := by omega
    have h2 : ¬(p.y = f.rows.length) := by omega
    simp only [File.insert, if_neg h1, if_pos rfl, if_true, File.insert_newline,
      File.unhighlight_rows, if_neg h2]
    rw [List.length_mapIdx]
    rw [listInsertAt_length _ _ _ (by rw [List.length_set]; omega)]
    rw [List.length_set]

/-- Claim C10 witness: the theorem applied to the empty buffer at the
append point (0, 0) and to a one-row buffer at row 0. -/
theorem claim_C10_witness :
    ((0 : Nat) = File.default.rows.length ∧
      (File.default.insert ⟨0, 0⟩ '\n').rows.length = File.default.rows.length + 2) ∧
    ((0 : Nat) <
        (File.insert File.default ⟨0, 0⟩ 'a').rows.length ∧
      ((File.insert File.default ⟨0, 0⟩ 'a').insert ⟨0, 0⟩ '\n').rows.length
        = (File.insert File.default ⟨0, 0⟩ 'a').rows.length + 1) :=
  ⟨⟨rfl, (claim_C10 File.default ⟨0, 0⟩).1 rfl⟩,
   ⟨by decide, (claim_C10 (File.insert File.default ⟨0, 0⟩ 'a') ⟨0, 0⟩).2 (by decide)⟩⟩

/-- Claim C7: confirmed.  For a well-formed row, a non-empty query and
an in-range start column, a forward find never returns a column below
the start and any returned column is the leftmost occurrence at or after
the start; a backward find never returns a column at or above the start
and any returned column is the rightmost occurrence strictly before the
start (occurrences lying inside the searched window). -/
theorem claim_C7 (r : Row) (q : List Char) (at_ : Nat)
    (hq : q ≠ []) (hwf : r.len = graphemeCount r.string) (hat : at_ ≤ r.len) :
    (∀ m, r.find q at_ SearchDirection.forward = some m →
       at_ ≤ m ∧ occAt r.string q m ∧
       ∀ c, at_ ≤ c → c < m → ¬ occAt r.string q c) ∧
    (∀ m, r.find q at_ SearchDirection.backward = some m →
       m < at_ ∧ occWithin r.string q at_ m ∧
       ∀ c, m < c → c < at_ → ¬ occWithin r.string q at_ c) := by
  have hW : ((clusters r.string).drop at_).take (r.len - at_)
      = (clusters r.string).drop at_ := by
    apply List.take_of_length_le
    have h2 : (clusters r.string).length = r.len := by
      rw [hwf, graphemeCount]
    rw [List.length_drop, h2]
  constructor
  · intro m hm
    obtain ⟨h1, _, h3, h4⟩ := rowFind_fwd_spec hm
    rw [hW] at h3
    rw [List.drop_drop] at h3
    rw [show at_ + (m - at_) = m from by omega] at h3
    refine ⟨h1, h3, ?_⟩
    intro c hc1 hc2 hocc
    have h5 := h4 c hc1 hc2
    rw [hW, List.drop_drop, show at_ + (c - at_) = c from by omega] at h5
    rw [occAt] at hocc
    rw [h5] at hocc
    exact Bool.noConfusion hocc
  · intro m hm
    obtain ⟨h1, h2, h3⟩ := rowFind_bwd_spec hm
    refine ⟨h1, h2, ?_⟩
    intro c hc1 _ hocc
    have h5 := h3 c hc1
    rw [occWithin] at hocc
    rw [h5] at hocc
    exact Bool.noConfusion hocc

/-- Claim C7 witness: the theorem applied to the row abcab with query ab
and start column 1, where the forward search returns column 3 and the
backward search returns column 0. -/
theorem claim_C7_witness :
    ("ab".toList ≠ [] ∧
      (Row.ofString "abcab".toList).len
        = graphemeCount (Row.ofString "abcab".toList).string ∧
      1 ≤ (Row.ofString "abcab".toList).len) ∧
    (1 ≤ 3 ∧ occAt (Row.ofString "abcab".toList).string "ab".toList 3 ∧
      ∀ c, 1 ≤ c → c < 3 → ¬ occAt (Row.ofString "abcab".toList).string "ab".toList c) ∧
    ((0 : Nat) < 4 ∧
      occWithin (Row.ofString "abcab".toList).string "ab".toList 4 0 ∧
      ∀ c, 0 < c → c < 4 →
        ¬ occWithin (Row.ofString "abcab".toList).string "ab".toList 4 c) :=
  ⟨⟨by decide, by decide, by decide⟩,
   (claim_C7 (Row.ofString "abcab".toList) "ab".toList 1
      (by decide) (by decide) (by decide)).1 3 (by decide),
   (claim_C7 (Row.ofString "abcab".toList) "ab".toList 4
      (by decide) (by decide) (by decide)).2 0 (by decide)⟩

/-- Claim C5 counterexample: the overlay does not run unconditionally.
With multiline comments enabled, carried flag true, row cat and search
word cat, the scan exits through the unterminated-comment return-true
path, highlight_match is never reached, and position 0 - which lies
inside the first occurrence span of the word - is classified
MultilineComment rather than Match. -/
theorem claim_C5_cex :
    ((Row.ofString "cat".toList).runHighlight rustOptions (some "cat".toList) true).2
      = true ∧
    inSpans (matchSpans "cat".toList 3 "cat".toList 5 0) 0 = true ∧
    classAt
      ((Row.ofString "cat".toList).runHighlight rustOptions (some "cat".toList) true).1.highlight
      0 = Highlight.mlComment := by
  refine ⟨by decide, by decide, by decide⟩

/-- Claim C5 (amended): whenever Row::highlight returns false - that is,
whenever the row scan completes instead of exiting through the
unterminated-multiline-comment paths - the match overlay has run: every
position inside an occurrence span of the non-empty search word (spans
taken leftmost-forward, each next search starting at the end of the
previous match) is classified Match, and every position outside all
spans keeps exactly the class the tokenizer pass assigned it. -/
theorem claim_C5 (r : Row) (hl : HighlightOptions) (w : List Char) (carry : Bool)
    (hw : w ≠ [])
    (hres : (r.runHighlight hl (some w) carry).2 = false) :
    ∀ j,
      (inSpans (matchSpans r.string r.len w (r.len + 2) 0) j = true →
        classAt (r.runHighlight hl (some w) carry).1.highlight j = Highlight.matched) ∧
      (inSpans (matchSpans r.string r.len w (r.len + 2) 0) j = false →
        classAt (r.runHighlight hl (some w) carry).1.highlight j =
          classAt (scanAux hl r.string (r.string.length + 1) 0 carry).1 j) := by
  by_cases hs2 : (scanAux hl r.string (r.string.length + 1) 0 carry).2 = true
  · exfalso
    rw [Row.runHighlight] at hres
    rw [if_pos hs2] at hres
    exact Bool.noConfusion hres
  · have hs2f : (scanAux hl r.string (r.string.length + 1) 0 carry).2 = false := by
      simpa using hs2
    have hh : (r.runHighlight hl (some w) carry).1.highlight
        = hlMatchLoop r.string r.len w (r.len + 2) 0
            (scanAux hl r.string (r.string.length + 1) 0 carry).1 := by
      rw [Row.runHighlight, if_neg hs2]
      show (hlMatch r.string r.len (some w)
        (scanAux hl r.string (r.string.length + 1) 0 carry).1) = _
      rw [hlMatch]
      rw [if_neg hw]
    have hlen : ((scanAux hl r.string (r.string.length + 1) 0 carry).1).length
        = r.string.length :=
      scanAux_length_top (r.string.length + 1) hl r.string carry (by omega) hs2f
    intro j
    have hchar := hlMatchLoop_classAt r.string w r.len (r.len + 2) 0
      (scanAux hl r.string (r.string.length + 1) 0 carry).1 hlen j
    constructor
    · intro hin
      rw [hh, hchar, if_pos hin]
    · intro hout
      rw [hh, hchar, if_neg (by rw [hout]; simp)]

/-- Claim C5 witness: the amended theorem applied to the row xcat with
word cat and empty options, where the span covers positions 1 to 3. -/
theorem claim_C5_witness :
    ("cat".toList ≠ [] ∧
      ((Row.ofString "xcat".toList).runHighlight HighlightOptions.default
        (some "cat".toList) false).2 = false) ∧
    ((inSpans (matchSpans (Row.ofString "xcat".toList).string
        (Row.ofString "xcat".toList).len "cat".toList
        ((Row.ofString "xcat".toList).len + 2) 0) 1 = true →
      classAt ((Row.ofString "xcat".toList).runHighlight HighlightOptions.default
        (some "cat".toList) false).1.highlight 1 = Highlight.matched) ∧
     (inSpans (matchSpans (Row.ofString "xcat".toList).string
        (Row.ofString "xcat".toList).len "cat".toList
        ((Row.ofString "xcat".toList).len + 2) 0) 1 = false →
      classAt ((Row.ofString "xcat".toList).runHighlight HighlightOptions.default
        (some "cat".toList) false).1.highlight 1 =
        classAt (scanAux HighlightOptions.default (Row.ofString "xcat".toList).string
          ((Row.ofString "xcat".toList).string.length + 1) 0 false).1 1)) :=
  ⟨⟨by decide, by decide⟩,
   claim_C5 (Row.ofString "xcat".toList) HighlightOptions.default "cat".toList false
     (by decide) (by decide) 1⟩

/-- Claim C6 counterexample: row start is not treated as an implicit
separator.  With the Rust options, whose primary keyword list contains
fn, the row fn-space-x has its maximal run fn at column 0, yet positions
0 and 1 are classified None, not Keyword1: the keyword branch only runs
when the scanner stands on an actual separator character. -/
theorem claim_C6_cex :
    classAt ((Row.ofString "fn x".toList).runHighlight rustOptions
      Option.none false).1.highlight 0 = Highlight.none ∧
    classAt ((Row.ofString "fn x".toList).runHighlight rustOptions
      Option.none false).1.highlight 1 = Highlight.none ∧
    classAt ((Row.ofString "fn x".toList).runHighlight rustOptions
      Option.none false).1.highlight 0 ≠ Highlight.keyword1 := by
  refine ⟨by decide, by decide, by decide⟩

/-- Claim C6 (amended): with options enabling only the primary keyword
list containing exactly fn, a maximal run equal to fn is classified
Keyword1 exactly when it is immediately preceded by a separator
character; the row start is not an implicit separator, so a run fn at
column 0 is not classified Keyword1, and a run such as fnx that merely
begins with the keyword is never classified Keyword1 and falls through
to None. -/
theorem claim_C6 (chars : List Char) (s e : Nat)
    (hrun : maximalRunB chars s e = true) :
    ((chars.drop s).take (e - s) = ['f', 'n'] →
      ((∀ j, s ≤ j → j < e →
          classAt (scanAux kwOnlyOptions chars (chars.length + 1) 0 false).1 j
            = Highlight.keyword1) ↔ 1 ≤ s)) ∧
    ((chars.drop s).take (e - s) = ['f', 'n', 'x'] →
      ∀ j, s ≤ j → j < e →
        classAt (scanAux kwOnlyOptions chars (chars.length + 1) 0 false).1 j
          = Highlight.none) := by
  obtain ⟨hse, hel, hinner, hleft, hright⟩ := maximalRunB_props hrun
  constructor
  · intro hfn
    have hlen2 : e - s = 2 := by
      have hlc := congrArg List.length hfn
      rw [List.length_take, List.length_drop] at hlc
      simp only [List.length_cons, List.length_nil] at hlc
      omega
    constructor
    · intro hall
      by_contra hs0
      have hs00 : s = 0 := by omega
      have h0 := hall s le_rfl (by omega)
      rw [scanKw_classAt chars s (by omega), hs00, kwHitB_self] at h0
      simp at h0
    · intro hs1 j hj1 hj2
      rw [scanKw_classAt chars j (by omega)]
      have hkw : kwRun chars (s - 1) = ['f', 'n'] := by
        rw [kwRun_of_maximalRun ⟨hse, hel, hinner, hleft, hright⟩ hs1, hfn]
      have hsep : sepAtB chars (s - 1) = true := by
        rcases hleft with h | h
        · omega
        · exact h
      have hhit : kwHitB chars 0 j = true := by
        rw [kwHitB_iff]
        refine ⟨s - 1, by omega, by omega, hsep, ?_, ?_⟩
        · rw [hkw]
          simp only [List.length_cons, List.length_nil]
          omega
        · rw [hkw]
          show (['f', 'n'] : List Char) ∈ ["fn".toList]
          exact List.mem_singleton.mpr rfl
      rw [hhit]
      simp
  · intro hfnx j hj1 hj2
    have hlen3 : e - s = 3 := by
      have hlc := congrArg List.length hfnx
      rw [List.length_take, List.length_drop] at hlc
      simp only [List.length_cons, List.length_nil] at hlc
      omega
    rw [scanKw_classAt chars j (by omega)]
    have hhit : kwHitB chars 0 j = false := by
      by_contra hcon
      rw [Bool.not_eq_false, kwHitB_iff] at hcon
      obtain ⟨sIdx, h0, hlt, hsep, hcov, hmem⟩ := hcon
      have hk1 : kwOnlyOptions.keywords1 = ["fn".toList] := rfl
      rw [hk1] at hmem
      have hrunfn : kwRun chars sIdx = ['f', 'n'] := List.mem_singleton.mp hmem
      by_cases hcase1 : s ≤ sIdx
      · have hin := hinner sIdx (by omega) (by omega)
        rw [hin.1] at hsep
        exact Bool.noConfusion hsep
      · have hs1 : 1 ≤ s := by omega
        by_cases hcase2 : sIdx = s - 1
        · have hx : kwRun chars (s - 1) = ['f', 'n', 'x'] := by
            rw [kwRun_of_maximalRun ⟨hse, hel, hinner, hleft, hright⟩ hs1, hfnx]
          rw [hcase2, hx] at hrunfn
          simp at hrunfn
        · have hcov2 : j < sIdx + 3 := by
            have h9 := hcov
            rw [hrunfn] at h9
            simp only [List.length_cons, List.length_nil] at h9
            omega
          have hsm1 : sIdx + 1 + 0 = s - 1 := by omega
          have h9 := @kwRun_char chars sIdx 0 (by rw [hrunfn]; simp)
          rw [hsm1] at h9
          have hsepL : sepAtB chars (s - 1) = true := by
            rcases hleft with h | h
            · omega
            · exact h
          rw [h9] at hsepL
          exact Bool.noConfusion hsepL
    rw [hhit]
    simp

/-- Claim C6 witness: the amended theorem applied to the row
space-f-n-space-x with the maximal run fn at columns 1 and 2, preceded
by a separator. -/
theorem claim_C6_witness :
    (maximalRunB " fn x".toList 1 3 = true ∧
      ((" fn x".toList).drop 1).take (3 - 1) = ['f', 'n']) ∧
    ((∀ j, 1 ≤ j → j < 3 →
        classAt (scanAux kwOnlyOptions " fn x".toList
          (" fn x".toList.length + 1) 0 false).1 j = Highlight.keyword1) ↔ 1 ≤ 1) :=
  ⟨⟨by decide, by decide⟩,
   (claim_C6 " fn x".toList 1 3 (by decide)).1 (by decide)⟩

end Hectors
